import Mathlib

/-!
# Navigation engine of `xd` (xd.go)

A shallow embedding of `Show`, `Execute`, `Navigate`, `NavigatePrompt` and
`NavigateList` from `xd.go`, together with the library functions whose
result the engine depends on (`strings.ReplaceAll`, `strings.Split`,
`strings.TrimSpace`).

Modelling decisions.

* Go strings are modelled by `String` (sequences of Unicode scalar values).
* The two external programs (dmenu and bash) are a `World`: the raw standard
  output of the n-th dmenu invocation and the result of the n-th bash
  invocation, each as a function of the request.  Quantifying over every
  `World` covers every run of the engine.
* Every call of `Show` and of `Execute` appends one `Event` to a trace; the
  functions are written in explicit trace-passing style and return a `Res`.
* `os.Exit(1)` and `log.Fatalf` end the process: outcome `exited`.
* `Navigate` recurses on the children of the selected command.  The model
  recurses on a fuel argument (`NavigateFuel`); `Navigate` supplies the depth
  of the tree plus one, which is proved sufficient (`Navigate_eq`,
  `Navigate_outcome_ne_outOfFuel`).
* The in-place rewrite of `cmd.Commands[i]` is modelled by the value
  `substituteChildren`; the engine never returns to a menu it has left, so the
  mutated backing array is only ever read by the recursive call that receives
  it.  The functions `NavigateMem`, `NavigatePromptMem` and `NavigateListMem`
  are the same engine returning, next to the result, the contents of the
  array they were given as it is when the call ends; they make the writes
  observable (`NavigateMem_fst` relates the two).
-/

namespace xd

/-! ## Library functions -/

/-- The placeholder token replaced by the captured value. -/
def placeholder : String := "$selected"

/-- Go `unicode.IsSpace`: the characters removed by `strings.TrimSpace`. -/
def isSpace (c : Char) : Bool :=
  decide (c.toNat ∈ [0x09, 0x0A, 0x0B, 0x0C, 0x0D, 0x20, 0x85, 0xA0, 0x1680,
    0x2028, 0x2029, 0x202F, 0x205F, 0x3000]) || (decide (0x2000 ≤ c.toNat) && decide (c.toNat ≤ 0x200A))

/-- Go `strings.TrimSpace`: removes leading and trailing white space. -/
def TrimSpace (s : String) : String :=
  ⟨((s.data.dropWhile isSpace).reverse.dropWhile isSpace).reverse⟩

/-- Scanning loop of `strings.Replace` for a non-empty `old`: the text is read
left to right, `skip` counts the characters of the current occurrence of `old`
that are still to be dropped; at a position where `old` starts, `new` is
emitted and the occurrence is dropped. -/
def replaceFrom (old new : List Char) : Nat → List Char → List Char
  | _, [] => []
  | k + 1, _ :: s => replaceFrom old new k s
  | 0, c :: s =>
    if old.isPrefixOf (c :: s) then new ++ replaceFrom old new (old.length - 1) s
    else c :: replaceFrom old new 0 s

/-- Go `strings.ReplaceAll(s, old, new)`: every non-overlapping occurrence of
`old`, found left to right, is replaced by `new`.  An empty `old` matches
before every character and at the end. -/
def ReplaceAll (s old new : String) : String :=
  if old.data = [] then ⟨new.data ++ (s.data.map (fun c => c :: new.data)).flatten⟩
  else ⟨replaceFrom old.data new.data 0 s.data⟩

/-- Scanning loop of `strings.Split` for a non-empty `sep`: `cur` is the piece
being read, reversed. -/
def splitFrom (sep : List Char) : Nat → List Char → List Char → List (List Char)
  | _, cur, [] => [cur.reverse]
  | k + 1, cur, _ :: s => splitFrom sep k cur s
  | 0, cur, c :: s =>
    if sep.isPrefixOf (c :: s) then cur.reverse :: splitFrom sep (sep.length - 1) [] s
    else splitFrom sep 0 (c :: cur) s

/-- Go `strings.Split(s, sep)`: the substrings between the occurrences of
`sep`; one more element than there are occurrences.  An empty `sep` splits
after every character. -/
def Split (s sep : String) : List String :=
  if sep.data = [] then s.data.map (fun c => ⟨[c]⟩)
  else (splitFrom sep.data 0 [] s.data).map String.mk

/-! ## Data model -/

/-- The `Command` struct of `xd.go`. -/
structure Command where
  name : String
  cmd : String
  list : String
  prompt : String
  commands : List Command

/-- The zero value `Command{}`, returned by a map lookup that misses. -/
def Command.zero : Command := ⟨"", "", "", "", []⟩

mutual
/-- Height of a command node: one more than the height of its children. -/
def Command.depth : Command → Nat
  | ⟨_, _, _, _, cs⟩ => depthList cs + 1
/-- Height of a list of sibling commands (0 for the empty list). -/
def depthList : List Command → Nat
  | [] => 0
  | c :: cs => max c.depth (depthList cs)
end

/-! ## The outside world and traces -/

/-- One interaction with the outside world. -/
inductive Event where
  | show (prompt : String) (options : List String)
  | exec (cmdStr : String)
  deriving DecidableEq, Repr

/-- A trace is the sequence of interactions so far, oldest first. -/
abbrev Trace := List Event

/-- Result of `cmd.CombinedOutput()` for a bash invocation: success with the
combined output, or an error with the combined output and the text of
`err.Error()`. -/
inductive ExecResult where
  | ok (output : String)
  | err (output : String) (msg : String)
  deriving DecidableEq, Repr

/-- The external programs.  `pick n prompt options` is the raw standard output
of the dmenu invocation number `n` (counted from 0), or `none` when dmenu
fails; `run n cmdStr` is the result of bash invocation number `n`. -/
structure World where
  pick : Nat → String → List String → Option String
  run : Nat → String → ExecResult

/-- How a call ends: it returns a value, the process is terminated, or the
model ran out of fuel. -/
inductive Outcome (α : Type) where
  | returned (a : α)
  | exited
  | outOfFuel
  deriving DecidableEq, Repr

/-- Result of a call: its outcome and the trace when it ended. -/
structure Res (α : Type) where
  outcome : Outcome α
  trace : Trace
  deriving DecidableEq, Repr

/-- Sequencing: continue with `k` when the first call returned. -/
def Res.andThen {α β : Type} (r : Res α) (k : α → Trace → Res β) : Res β :=
  match r.outcome with
  | .returned a => k a r.trace
  | .exited => ⟨.exited, r.trace⟩
  | .outOfFuel => ⟨.outOfFuel, r.trace⟩

/-- Number of dmenu invocations in a trace. -/
def showCount (tr : Trace) : Nat :=
  tr.countP (fun e => match e with | .show _ _ => true | .exec _ => false)

/-- Number of bash invocations in a trace. -/
def execCount (tr : Trace) : Nat :=
  tr.countP (fun e => match e with | .show _ _ => false | .exec _ => true)

/-- The commands passed to bash in a trace, in order. -/
def execCalls (tr : Trace) : List String :=
  tr.filterMap (fun e => match e with | .show _ _ => none | .exec c => some c)

/-! ## The engine -/

/-- Go `Show`: runs dmenu with the prompt and the options; a dmenu error is
fatal (`log.Fatalf`), otherwise the trimmed output is returned. -/
def Show (w : World) (prompt : String) (options : List String) (tr : Trace) : Res String :=
  match w.pick (showCount tr) prompt options with
  | none => ⟨.exited, tr ++ [Event.show prompt options]⟩
  | some output => ⟨.returned (TrimSpace output), tr ++ [Event.show prompt options]⟩

/-- Go `Execute`: runs the command in bash and returns its combined output; on
an error it shows the error text with an "Exit" option and ends the process. -/
def Execute (w : World) (cmdStr : String) (tr : Trace) : Res String :=
  match w.run (execCount tr) cmdStr with
  | .ok output => ⟨.returned output, tr ++ [Event.exec cmdStr]⟩
  | .err output msg =>
    let e := if output = "" then msg else output
    ⟨.exited, (Show w "Error" ["Error: " ++ e, "Exit"] (tr ++ [Event.exec cmdStr])).trace⟩

/-- The map `cmdMap` built by the loop of `Navigate`, as a function of the key:
a later command overwrites an earlier one of the same name, a key that was
never written gives the zero value. -/
def cmdMap (commands : List Command) : String → Command :=
  commands.foldl (fun m c => fun k => if k = c.name then c else m k) (fun _ => Command.zero)

/-- The loop `for i := range cmd.Commands` of `NavigatePrompt` and
`NavigateList`: first `List`, then `Cmd` is assigned the `Cmd` of the child
with the placeholder replaced. -/
def substituteChildren (children : List Command) (value : String) : List Command :=
  children.map (fun c =>
    let c1 := { c with list := ReplaceAll c.cmd placeholder value }
    { c1 with cmd := ReplaceAll c1.cmd placeholder value })

/-- Go `NavigatePrompt`, with the recursive call of `Navigate` as the
parameter `nav`. -/
def NavigatePromptWith (nav : List Command → String → Trace → Res Unit)
    (w : World) (cmd : Command) (prompt : String) (tr : Trace) : Res Unit :=
  (Show w (prompt ++ " > " ++ cmd.name ++ " > " ++ cmd.prompt) [] tr).andThen fun input tr1 =>
    if input = "" then ⟨.returned (), tr1⟩
    else if cmd.commands.length > 0 then
      nav (substituteChildren cmd.commands input) (prompt ++ " > " ++ cmd.name) tr1
    else if cmd.cmd ≠ "" then
      (Execute w (ReplaceAll cmd.cmd placeholder input) tr1).andThen fun _ tr2 => ⟨.returned (), tr2⟩
    else ⟨.returned (), tr1⟩

/-- The options computed by `NavigateList` from the output of the list
command: its pieces between newlines unless it is empty, then "Exit". -/
def listOptions (output : String) : List String :=
  (if output ≠ "" then [] ++ Split output "\n" else []) ++ ["Exit"]

/-- Go `NavigateList`, with the recursive call of `Navigate` as the parameter
`nav`. -/
def NavigateListWith (nav : List Command → String → Trace → Res Unit)
    (w : World) (cmd : Command) (prompt : String) (tr : Trace) : Res Unit :=
  (Execute w cmd.list tr).andThen fun output tr1 =>
    (Show w (prompt ++ " > " ++ cmd.name) (listOptions output) tr1).andThen fun selectedItem tr2 =>
      if selectedItem = "Exit" then ⟨.returned (), tr2⟩
      else if cmd.commands.length > 0 then
        nav (substituteChildren cmd.commands selectedItem) (prompt ++ " > " ++ cmd.name) tr2
      else if cmd.cmd ≠ "" then
        (Execute w (ReplaceAll cmd.cmd placeholder selectedItem) tr2).andThen
          fun _ tr3 => ⟨.returned (), tr3⟩
      else ⟨.returned (), tr2⟩

/-- One frame of Go `Navigate`, with the recursive call as the parameter
`nav`. -/
def NavigateWith (nav : List Command → String → Trace → Res Unit)
    (w : World) (commands : List Command) (prompt : String) (tr : Trace) : Res Unit :=
  (Show w prompt (commands.map (fun c => c.name) ++ ["Exit"]) tr).andThen fun selected tr1 =>
    let selectedCmd := cmdMap commands selected
    if selectedCmd.prompt ≠ "" then NavigatePromptWith nav w selectedCmd prompt tr1
    else if selectedCmd.list ≠ "" then NavigateListWith nav w selectedCmd prompt tr1
    else if selectedCmd.commands.length > 0 then
      nav selectedCmd.commands (prompt ++ " > " ++ selectedCmd.name) tr1
    else if selectedCmd.cmd ≠ "" then
      (Execute w selectedCmd.cmd tr1).andThen fun _ tr2 => ⟨.returned (), tr2⟩
    else ⟨.returned (), tr1⟩

/-- Go `Navigate` with a bound on the recursion depth. -/
def NavigateFuel (w : World) : Nat → List Command → String → Trace → Res Unit
  | 0, _, _, tr => ⟨.outOfFuel, tr⟩
  | fuel + 1, commands, prompt, tr => NavigateWith (NavigateFuel w fuel) w commands prompt tr

/-- Go `Navigate`. -/
def Navigate (w : World) (commands : List Command) (prompt : String) (tr : Trace) : Res Unit :=
  NavigateFuel w (depthList commands + 1) commands prompt tr

/-- Go `NavigatePrompt`. -/
def NavigatePrompt (w : World) (cmd : Command) (prompt : String) (tr : Trace) : Res Unit :=
  NavigatePromptWith (Navigate w) w cmd prompt tr

/-- Go `NavigateList`. -/
def NavigateList (w : World) (cmd : Command) (prompt : String) (tr : Trace) : Res Unit :=
  NavigateListWith (Navigate w) w cmd prompt tr

/-! ## The engine with the memory of the tree -/

/-- The memory write that an in-place rewrite below the selected command
amounts to: the `Commands` slice of the command found by the lookup of `name`
in `cmdMap` (the last sibling of that name) shares its backing array with the
copy that was navigated, so its elements are `children` afterwards. -/
def storeChildren : List Command → String → List Command → List Command
  | [], _, _ => []
  | c :: cs, name, children =>
    if cs.any (fun d => decide (d.name = name)) then c :: storeChildren cs name children
    else if c.name = name then { c with commands := children } :: cs
    else c :: cs

/-- Sequencing for the functions that also return the memory: when the first
call ends the process the memory is `m`. -/
def Res.andThenMem {α : Type} (r : Res α) (m : List Command)
    (k : α → Trace → Res Unit × List Command) : Res Unit × List Command :=
  match r.outcome with
  | .returned a => k a r.trace
  | .exited => (⟨.exited, r.trace⟩, m)
  | .outOfFuel => (⟨.outOfFuel, r.trace⟩, m)

/-- Go `NavigatePrompt` together with the contents of the backing array of
`cmd.Commands` when the call ends; `nav` is the recursive call of `Navigate`,
which returns the contents of the array it was given. -/
def NavigatePromptMemWith (nav : List Command → String → Trace → Res Unit × List Command)
    (w : World) (cmd : Command) (prompt : String) (tr : Trace) : Res Unit × List Command :=
  (Show w (prompt ++ " > " ++ cmd.name ++ " > " ++ cmd.prompt) [] tr).andThenMem cmd.commands
    fun input tr1 =>
      if input = "" then (⟨.returned (), tr1⟩, cmd.commands)
      else if cmd.commands.length > 0 then
        nav (substituteChildren cmd.commands input) (prompt ++ " > " ++ cmd.name) tr1
      else if cmd.cmd ≠ "" then
        ((Execute w (ReplaceAll cmd.cmd placeholder input) tr1).andThen
          fun _ tr2 => ⟨.returned (), tr2⟩, cmd.commands)
      else (⟨.returned (), tr1⟩, cmd.commands)

/-- Go `NavigateList` together with the contents of the backing array of
`cmd.Commands` when the call ends. -/
def NavigateListMemWith (nav : List Command → String → Trace → Res Unit × List Command)
    (w : World) (cmd : Command) (prompt : String) (tr : Trace) : Res Unit × List Command :=
  (Execute w cmd.list tr).andThenMem cmd.commands fun output tr1 =>
    (Show w (prompt ++ " > " ++ cmd.name) (listOptions output) tr1).andThenMem cmd.commands
      fun selectedItem tr2 =>
        if selectedItem = "Exit" then (⟨.returned (), tr2⟩, cmd.commands)
        else if cmd.commands.length > 0 then
          nav (substituteChildren cmd.commands selectedItem) (prompt ++ " > " ++ cmd.name) tr2
        else if cmd.cmd ≠ "" then
          ((Execute w (ReplaceAll cmd.cmd placeholder selectedItem) tr2).andThen
            fun _ tr3 => ⟨.returned (), tr3⟩, cmd.commands)
        else (⟨.returned (), tr2⟩, cmd.commands)

/-- One frame of Go `Navigate` together with the contents of the array
`commands` (and of the arrays below it) when the call ends. -/
def NavigateMemWith (nav : List Command → String → Trace → Res Unit × List Command)
    (w : World) (commands : List Command) (prompt : String) (tr : Trace) :
    Res Unit × List Command :=
  (Show w prompt (commands.map (fun c => c.name) ++ ["Exit"]) tr).andThenMem commands
    fun selected tr1 =>
      let selectedCmd := cmdMap commands selected
      if selectedCmd.prompt ≠ "" then
        ((NavigatePromptMemWith nav w selectedCmd prompt tr1).1,
          storeChildren commands selected (NavigatePromptMemWith nav w selectedCmd prompt tr1).2)
      else if selectedCmd.list ≠ "" then
        ((NavigateListMemWith nav w selectedCmd prompt tr1).1,
          storeChildren commands selected (NavigateListMemWith nav w selectedCmd prompt tr1).2)
      else if selectedCmd.commands.length > 0 then
        ((nav selectedCmd.commands (prompt ++ " > " ++ selectedCmd.name) tr1).1,
          storeChildren commands selected
            (nav selectedCmd.commands (prompt ++ " > " ++ selectedCmd.name) tr1).2)
      else if selectedCmd.cmd ≠ "" then
        ((Execute w selectedCmd.cmd tr1).andThen fun _ tr2 => ⟨.returned (), tr2⟩, commands)
      else (⟨.returned (), tr1⟩, commands)

/-- Go `Navigate` with the memory, with a bound on the recursion depth. -/
def NavigateMemFuel (w : World) :
    Nat → List Command → String → Trace → Res Unit × List Command
  | 0, commands, _, tr => (⟨.outOfFuel, tr⟩, commands)
  | fuel + 1, commands, prompt, tr =>
    NavigateMemWith (NavigateMemFuel w fuel) w commands prompt tr

/-- Go `Navigate` with the memory. -/
def NavigateMem (w : World) (commands : List Command) (prompt : String) (tr : Trace) :
    Res Unit × List Command :=
  NavigateMemFuel w (depthList commands + 1) commands prompt tr

/-- Go `NavigatePrompt` with the memory. -/
def NavigatePromptMem (w : World) (cmd : Command) (prompt : String) (tr : Trace) :
    Res Unit × List Command :=
  NavigatePromptMemWith (NavigateMem w) w cmd prompt tr

/-- Go `NavigateList` with the memory. -/
def NavigateListMem (w : World) (cmd : Command) (prompt : String) (tr : Trace) :
    Res Unit × List Command :=
  NavigateListMemWith (NavigateMem w) w cmd prompt tr

/-! ## Example worlds and trees -/

/-- A world whose picker gives the listed answers in turn (dmenu fails once
they are used up) and whose bash invocations succeed with `out cmdStr`. -/
def scripted (answers : List String) (out : String → String) : World where
  pick := fun n _ _ => answers.get? n
  run := fun _ c => .ok (out c)

/-- The example tree of the default configuration. -/
def systemTree : List Command :=
  [⟨"System", "", "", "", [⟨"Reboot", "reboot", "", "", []⟩, ⟨"Shutdown", "shutdown now", "", "", []⟩]⟩]

/-- The example node `Connect` with list command `L`. -/
def connectNode (L : String) : Command :=
  ⟨"Connect", "", L, "", [⟨"Go", "connect $selected", "", "", []⟩]⟩

/-- The example node `Rename`. -/
def renameNode : Command := ⟨"Rename", "rename $selected", "", "New name", []⟩

/-- A node with a prompt and a child whose cmd and list differ. -/
def tagNode : Command :=
  ⟨"Tag", "", "", "Tag name", [⟨"Apply", "tag $selected", "list-tags", "", []⟩]⟩

/-! ## Vocabulary of the properties -/

/-- The string has an occurrence of the placeholder token. -/
def containsPlaceholder (s : String) : Prop := placeholder.data <:+: s.data

instance (s : String) : Decidable (containsPlaceholder s) := by
  unfold containsPlaceholder; infer_instance

/-- The cuts of the placeholder token into a non-empty beginning and a
non-empty rest: from `$` with `selected` to `$selecte` with `d`. -/
def tokenSplits : List (List Char × List Char) :=
  (List.range placeholder.data.length).tail.map
    (fun k => (placeholder.data.take k, placeholder.data.drop k))

/-- The occurrences of the placeholder token in a text, each given by the text
before it and the text after it. -/
def occurrences (t : List Char) : List (List Char × List Char) :=
  ((List.range (t.length + 1)).filter (fun i => placeholder.data.isPrefixOf (t.drop i))).map
    (fun i => (t.take i, t.drop (i + placeholder.data.length)))

/-- Some inserted value re-forms a token.  At an occurrence of the token in the
template, with `o.1` the text before it and `o.2` the text after it: the
value has an occurrence itself; or the text before ends with the beginning of
a token, and the value followed by the substituted text after begins with
the missing rest; or the value ends with the beginning of a token, and the
substituted text after begins with the missing rest. -/
def reformsToken (template value : String) : Prop :=
  ∃ o ∈ occurrences template.data,
    placeholder.data <:+: value.data ∨
    (∃ qr ∈ tokenSplits, qr.1 <:+ o.1 ∧
      qr.2 <+: value.data ++ replaceFrom placeholder.data value.data 0 o.2) ∨
    (∃ qr ∈ tokenSplits, qr.1 <:+ value.data ∧
      qr.2 <+: replaceFrom placeholder.data value.data 0 o.2)

instance (template value : String) : Decidable (reformsToken template value) := by
  unfold reformsToken; infer_instance

/-- The answers returned by `Show` from its invocation number `n` on are the
listed ones, in order, whatever is asked. -/
def Answers (w : World) : Nat → List String → Prop
  | _, [] => True
  | n, a :: as => (∀ p o, (w.pick n p o).map TrimSpace = some a) ∧ Answers w (n + 1) as

/-- The names `answers` lead from the sibling list `commands` through submenu
nodes (no prompt, no list, some children) to the node `leaf`, which has only
its `cmd` set; the sibling names are unique at every level passed. -/
inductive LeafPath : List Command → List String → Command → Prop where
  | leaf {commands : List Command} {c : Command}
      (hnd : (commands.map (fun c => c.name)).Nodup) (hc : c ∈ commands)
      (hp : c.prompt = "") (hl : c.list = "") (hcs : c.commands = []) (hcmd : c.cmd ≠ "") :
      LeafPath commands [c.name] c
  | step {commands : List Command} {c : Command} {answers : List String} {leaf : Command}
      (hnd : (commands.map (fun c => c.name)).Nodup) (hc : c ∈ commands)
      (hp : c.prompt = "") (hl : c.list = "") (hcs : c.commands.length > 0)
      (hrest : LeafPath c.commands answers leaf) :
      LeafPath commands (c.name :: answers) leaf

/-! ## Basic facts about the model -/

theorem Command.depth_eq (c : Command) : c.depth = depthList c.commands + 1 := by
  cases c; simp [Command.depth]

theorem depth_le_depthList {c : Command} {cs : List Command} (h : c ∈ cs) :
    c.depth ≤ depthList cs := by
  induction cs with
  | nil => cases h
  | cons d ds ih =>
    simp only [depthList]
    rcases List.mem_cons.1 h with rfl | h
    · exact le_max_left _ _
    · exact le_trans (ih h) (le_max_right _ _)

theorem depthList_substituteChildren (cs : List Command) (v : String) :
    depthList (substituteChildren cs v) = depthList cs := by
  induction cs with
  | nil => rfl
  | cons d ds ih =>
    have ih2 : depthList (List.map (fun c : Command =>
        ({ name := c.name, cmd := ReplaceAll c.cmd placeholder v,
           list := ReplaceAll c.cmd placeholder v, prompt := c.prompt,
           commands := c.commands } : Command)) ds) = depthList ds := ih
    simp [substituteChildren, depthList, Command.depth_eq, ih2]

theorem cmdMap_nil (k : String) : cmdMap [] k = Command.zero := rfl

theorem cmdMap_concat (cs : List Command) (c : Command) (k : String) :
    cmdMap (cs ++ [c]) k = if k = c.name then c else cmdMap cs k := by
  simp [cmdMap, List.foldl_append]

/-- A lookup in `cmdMap` gives the zero value or a command of the list that
carries the key as its name. -/
theorem cmdMap_zero_or_mem (cs : List Command) (k : String) :
    cmdMap cs k = Command.zero ∨ (cmdMap cs k ∈ cs ∧ (cmdMap cs k).name = k) := by
  induction cs using List.reverseRecOn with
  | nil => exact Or.inl rfl
  | append_singleton ds d ih =>
    rw [cmdMap_concat]
    by_cases hk : k = d.name
    · simp [hk]
    · simp only [hk, if_false]
      rcases ih with h | ⟨h1, h2⟩
      · exact Or.inl h
      · exact Or.inr ⟨List.mem_append_left _ h1, h2⟩

/-- With unique sibling names the lookup of a name finds the command that
carries it. -/
theorem cmdMap_of_mem {cs : List Command} (hnd : (cs.map (fun c => c.name)).Nodup)
    {c : Command} (hc : c ∈ cs) : cmdMap cs c.name = c := by
  induction cs using List.reverseRecOn with
  | nil => cases hc
  | append_singleton ds d ih =>
    rw [cmdMap_concat]
    rw [List.map_append, List.nodup_append] at hnd
    obtain ⟨hds, -, hdisj⟩ := hnd
    rcases List.mem_append.1 hc with h | h
    · have hne : c.name ≠ d.name := by
        intro he
        exact hdisj (List.mem_map_of_mem (fun c : Command => c.name) h) (by simp [he])
      simp [hne, ih hds h]
    · have : c = d := by simpa using h
      simp [this]

theorem cmdMap_commands_depth (cs : List Command) (k : String)
    (h : (cmdMap cs k).commands.length > 0) :
    depthList (cmdMap cs k).commands < depthList cs := by
  rcases cmdMap_zero_or_mem cs k with hz | ⟨hm, -⟩
  · rw [hz] at h; simp [Command.zero] at h
  · have := depth_le_depthList hm
    rw [Command.depth_eq] at this
    omega

theorem NavigatePromptWith_congr (nav1 nav2 : List Command → String → Trace → Res Unit)
    (w : World) (cmd : Command) (prompt : String) (tr : Trace)
    (h : ∀ v p t, nav1 (substituteChildren cmd.commands v) p t
      = nav2 (substituteChildren cmd.commands v) p t) :
    NavigatePromptWith nav1 w cmd prompt tr = NavigatePromptWith nav2 w cmd prompt tr := by
  unfold NavigatePromptWith Res.andThen
  split <;> try rfl
  beta_reduce
  split_ifs <;> first | rfl | exact h _ _ _

theorem NavigateListWith_congr (nav1 nav2 : List Command → String → Trace → Res Unit)
    (w : World) (cmd : Command) (prompt : String) (tr : Trace)
    (h : ∀ v p t, nav1 (substituteChildren cmd.commands v) p t
      = nav2 (substituteChildren cmd.commands v) p t) :
    NavigateListWith nav1 w cmd prompt tr = NavigateListWith nav2 w cmd prompt tr := by
  unfold NavigateListWith Res.andThen
  split <;> try rfl
  beta_reduce
  split <;> try rfl
  split_ifs <;> first | rfl | exact h _ _ _

theorem NavigateWith_congr (nav1 nav2 : List Command → String → Trace → Res Unit)
    (w : World) (commands : List Command) (prompt : String) (tr : Trace)
    (h : ∀ cs p t, depthList cs < depthList commands → nav1 cs p t = nav2 cs p t) :
    NavigateWith nav1 w commands prompt tr = NavigateWith nav2 w commands prompt tr := by
  unfold NavigateWith Res.andThen
  split <;> try rfl
  rename_i selected _
  dsimp only
  by_cases hlen : (cmdMap commands selected).commands.length > 0
  · have hd := cmdMap_commands_depth commands selected hlen
    have hs : ∀ v p t, nav1 (substituteChildren (cmdMap commands selected).commands v) p t
        = nav2 (substituteChildren (cmdMap commands selected).commands v) p t := by
      intro v p t
      exact h _ _ _ (by rw [depthList_substituteChildren]; exact hd)
    rw [NavigatePromptWith_congr nav1 nav2 w _ prompt _ hs,
      NavigateListWith_congr nav1 nav2 w _ prompt _ hs, h _ _ _ hd]
  · have hnil : (cmdMap commands selected).commands = [] := by
      cases hc : (cmdMap commands selected).commands with
      | nil => rfl
      | cons a l => rw [hc] at hlen; simp at hlen
    have e1 : ∀ t, NavigatePromptWith nav1 w (cmdMap commands selected) prompt t
        = NavigatePromptWith nav2 w (cmdMap commands selected) prompt t := by
      intro t
      unfold NavigatePromptWith Res.andThen
      simp [hnil]
    have e2 : ∀ t, NavigateListWith nav1 w (cmdMap commands selected) prompt t
        = NavigateListWith nav2 w (cmdMap commands selected) prompt t := by
      intro t
      unfold NavigateListWith Res.andThen
      simp [hnil]
    rw [e1, e2]
    simp [hnil]

/-- Any fuel above the depth of the tree gives the same result. -/
theorem NavigateFuel_stable (w : World) :
    ∀ (n m : Nat) (commands : List Command) (prompt : String) (tr : Trace),
      depthList commands < n → depthList commands < m →
      NavigateFuel w n commands prompt tr = NavigateFuel w m commands prompt tr := by
  intro n
  induction n with
  | zero => intro m commands prompt tr h; omega
  | succ n ih =>
    intro m commands prompt tr hn hm
    cases m with
    | zero => omega
    | succ m =>
      simp only [NavigateFuel]
      apply NavigateWith_congr
      intro cs p t hcs
      exact ih m cs p t (by omega) (by omega)

/-- The defining equation of Go `Navigate`: one frame whose recursive call
is `Navigate` itself. -/
theorem Navigate_eq (w : World) (commands : List Command) (prompt : String) (tr : Trace) :
    Navigate w commands prompt tr = NavigateWith (Navigate w) w commands prompt tr := by
  unfold Navigate
  simp only [NavigateFuel]
  apply NavigateWith_congr
  intro cs p t hcs
  exact NavigateFuel_stable w (depthList commands) (depthList cs + 1) cs p t hcs (by omega)

/-! ## Traces only grow, and the fuel of `Navigate` is enough -/

theorem Show_pick_some {w : World} {prompt : String} {options : List String} {tr : Trace}
    {raw : String} (h : w.pick (showCount tr) prompt options = some raw) :
    Show w prompt options tr = ⟨.returned (TrimSpace raw), tr ++ [Event.show prompt options]⟩ := by
  simp [Show, h]

theorem Execute_run_ok {w : World} {cmdStr : String} {tr : Trace} {out : String}
    (h : w.run (execCount tr) cmdStr = .ok out) :
    Execute w cmdStr tr = ⟨.returned out, tr ++ [Event.exec cmdStr]⟩ := by
  simp [Execute, h]

theorem Show_trace (w : World) (prompt : String) (options : List String) (tr : Trace) :
    (Show w prompt options tr).trace = tr ++ [Event.show prompt options] := by
  unfold Show; split <;> rfl

theorem Show_outcome (w : World) (prompt : String) (options : List String) (tr : Trace) :
    (Show w prompt options tr).outcome ≠ .outOfFuel := by
  unfold Show; split <;> simp

theorem Execute_outcome (w : World) (cmdStr : String) (tr : Trace) :
    (Execute w cmdStr tr).outcome ≠ .outOfFuel := by
  unfold Execute; split <;> simp

/-- Every call of `Execute` records the command first; after an error only
the error menu follows. -/
theorem Execute_trace (w : World) (cmdStr : String) (tr : Trace) :
    (Execute w cmdStr tr).trace = tr ++ [Event.exec cmdStr] ∨
    ∃ e, (Execute w cmdStr tr).trace
      = tr ++ [Event.exec cmdStr] ++ [Event.show "Error" ["Error: " ++ e, "Exit"]] := by
  unfold Execute
  split
  · exact Or.inl rfl
  · rename_i output msg _
    exact Or.inr ⟨if output = "" then msg else output, by simp [Show_trace]⟩

theorem Execute_trace_extends (w : World) (cmdStr : String) (tr : Trace) :
    tr ++ [Event.exec cmdStr] <+: (Execute w cmdStr tr).trace := by
  rcases Execute_trace w cmdStr tr with h | ⟨e, h⟩ <;> rw [h]
  exact List.prefix_append _ _

theorem Execute_execCalls (w : World) (cmdStr : String) (tr : Trace) :
    execCalls (Execute w cmdStr tr).trace = execCalls tr ++ [cmdStr] := by
  rcases Execute_trace w cmdStr tr with h | ⟨e, h⟩ <;> rw [h] <;> simp [execCalls]

theorem andThen_trace_extends {α β : Type} (r : Res α) (k : α → Trace → Res β) (pre : Trace)
    (hr : pre <+: r.trace) (hk : ∀ a, r.outcome = .returned a → pre <+: (k a r.trace).trace) :
    pre <+: (r.andThen k).trace := by
  unfold Res.andThen
  split
  · rename_i a h; exact hk a h
  · exact hr
  · exact hr

theorem andThen_outcome {α β : Type} (r : Res α) (k : α → Trace → Res β)
    (hr : r.outcome ≠ .outOfFuel) (hk : ∀ a t, (k a t).outcome ≠ .outOfFuel) :
    (r.andThen k).outcome ≠ .outOfFuel := by
  unfold Res.andThen
  split
  · exact hk _ _
  · simp
  · rename_i h; exact absurd h hr

theorem andThen_returned {α β : Type} (a : α) (t : Trace) (k : α → Trace → Res β) :
    (Res.andThen ⟨.returned a, t⟩ k) = k a t := rfl

theorem NavigatePromptWith_trace_extends (nav : List Command → String → Trace → Res Unit)
    (hnav : ∀ cs p t, t <+: (nav cs p t).trace)
    (w : World) (cmd : Command) (prompt : String) (tr : Trace) :
    tr ++ [Event.show (prompt ++ " > " ++ cmd.name ++ " > " ++ cmd.prompt) []]
      <+: (NavigatePromptWith nav w cmd prompt tr).trace := by
  unfold NavigatePromptWith
  apply andThen_trace_extends
  · rw [Show_trace]
  · intro input _
    rw [Show_trace]
    split_ifs
    · exact List.prefix_refl _
    · exact hnav _ _ _
    · apply andThen_trace_extends
      · exact (List.prefix_append _ _).trans (Execute_trace_extends _ _ _)
      · intro _ _
        exact (List.prefix_append _ _).trans (Execute_trace_extends _ _ _)
    · exact List.prefix_refl _

theorem NavigateListWith_trace_extends (nav : List Command → String → Trace → Res Unit)
    (hnav : ∀ cs p t, t <+: (nav cs p t).trace)
    (w : World) (cmd : Command) (prompt : String) (tr : Trace) :
    tr ++ [Event.exec cmd.list] <+: (NavigateListWith nav w cmd prompt tr).trace := by
  unfold NavigateListWith
  have hE := Execute_trace_extends w cmd.list tr
  apply andThen_trace_extends _ _ _ hE
  intro output _
  have hS : tr ++ [Event.exec cmd.list] <+: (Show w (prompt ++ " > " ++ cmd.name)
      (listOptions output) (Execute w cmd.list tr).trace).trace := by
    rw [Show_trace]; exact hE.trans (List.prefix_append _ _)
  apply andThen_trace_extends _ _ _ hS
  intro selectedItem _
  split_ifs
  · exact hS
  · exact hS.trans (hnav _ _ _)
  · apply andThen_trace_extends
    · exact hS.trans ((List.prefix_append _ _).trans (Execute_trace_extends _ _ _))
    · intro _ _
      exact hS.trans ((List.prefix_append _ _).trans (Execute_trace_extends _ _ _))
  · exact hS

theorem NavigateWith_trace_extends (nav : List Command → String → Trace → Res Unit)
    (hnav : ∀ cs p t, t <+: (nav cs p t).trace)
    (w : World) (commands : List Command) (prompt : String) (tr : Trace) :
    tr ++ [Event.show prompt (commands.map (fun c => c.name) ++ ["Exit"])]
      <+: (NavigateWith nav w commands prompt tr).trace := by
  unfold NavigateWith
  apply andThen_trace_extends
  · rw [Show_trace]
  · intro selected _
    rw [Show_trace]
    dsimp only
    split_ifs
    · exact (List.prefix_append _ _).trans (NavigatePromptWith_trace_extends nav hnav _ _ _ _)
    · exact (List.prefix_append _ _).trans (NavigateListWith_trace_extends nav hnav _ _ _ _)
    · exact hnav _ _ _
    · apply andThen_trace_extends
      · exact (List.prefix_append _ _).trans (Execute_trace_extends _ _ _)
      · intro _ _
        exact (List.prefix_append _ _).trans (Execute_trace_extends _ _ _)
    · exact List.prefix_refl _

theorem NavigateFuel_trace_extends (w : World) (n : Nat) :
    ∀ (commands : List Command) (prompt : String) (tr : Trace),
      tr <+: (NavigateFuel w n commands prompt tr).trace := by
  induction n with
  | zero => intro _ _ tr; exact List.prefix_refl _
  | succ n ih =>
    intro commands prompt tr
    simp only [NavigateFuel]
    exact (List.prefix_append _ _).trans (NavigateWith_trace_extends _ ih w commands prompt tr)

/-- A call of `Navigate` only appends to the trace. -/
theorem Navigate_trace_extends (w : World) (commands : List Command) (prompt : String)
    (tr : Trace) : tr <+: (Navigate w commands prompt tr).trace :=
  NavigateFuel_trace_extends w _ commands prompt tr

theorem NavigatePromptWith_outcome (nav : List Command → String → Trace → Res Unit)
    (w : World) (cmd : Command) (prompt : String) (tr : Trace)
    (hnav : cmd.commands.length > 0 →
      ∀ v p t, (nav (substituteChildren cmd.commands v) p t).outcome ≠ .outOfFuel) :
    (NavigatePromptWith nav w cmd prompt tr).outcome ≠ .outOfFuel := by
  unfold NavigatePromptWith
  apply andThen_outcome _ _ (Show_outcome _ _ _ _)
  intro input t
  split_ifs with h1 h2 h3
  · simp
  · exact hnav h2 _ _ _
  · exact andThen_outcome _ _ (Execute_outcome _ _ _) (by intro _ _; simp)
  · simp

theorem NavigateListWith_outcome (nav : List Command → String → Trace → Res Unit)
    (w : World) (cmd : Command) (prompt : String) (tr : Trace)
    (hnav : cmd.commands.length > 0 →
      ∀ v p t, (nav (substituteChildren cmd.commands v) p t).outcome ≠ .outOfFuel) :
    (NavigateListWith nav w cmd prompt tr).outcome ≠ .outOfFuel := by
  unfold NavigateListWith
  apply andThen_outcome _ _ (Execute_outcome _ _ _)
  intro output t
  apply andThen_outcome _ _ (Show_outcome _ _ _ _)
  intro selectedItem t2
  split_ifs with h1 h2 h3
  · simp
  · exact hnav h2 _ _ _
  · exact andThen_outcome _ _ (Execute_outcome _ _ _) (by intro _ _; simp)
  · simp

theorem NavigateFuel_outcome (w : World) (n : Nat) :
    ∀ (commands : List Command) (prompt : String) (tr : Trace), depthList commands < n →
      (NavigateFuel w n commands prompt tr).outcome ≠ .outOfFuel := by
  induction n with
  | zero => intro _ _ _ h; omega
  | succ n ih =>
    intro commands prompt tr hd
    simp only [NavigateFuel]
    unfold NavigateWith
    apply andThen_outcome _ _ (Show_outcome _ _ _ _)
    intro selected t
    have hch : (cmdMap commands selected).commands.length > 0 →
        ∀ v p t, (NavigateFuel w n (substituteChildren (cmdMap commands selected).commands v)
          p t).outcome ≠ .outOfFuel := by
      intro hlen v p t
      apply ih
      rw [depthList_substituteChildren]
      have := cmdMap_commands_depth commands selected hlen
      omega
    dsimp only
    split_ifs with h1 h2 h3 h4
    · exact NavigatePromptWith_outcome _ _ _ _ _ hch
    · exact NavigateListWith_outcome _ _ _ _ _ hch
    · apply ih
      have := cmdMap_commands_depth commands selected h3
      omega
    · exact andThen_outcome _ _ (Execute_outcome _ _ _) (by intro _ _; simp)
    · simp

/-- Go `Navigate` terminates on every tree: the model never runs out of
fuel, it returns or the process is ended. -/
theorem Navigate_outcome_ne_outOfFuel (w : World) (commands : List Command) (prompt : String)
    (tr : Trace) : (Navigate w commands prompt tr).outcome ≠ .outOfFuel :=
  NavigateFuel_outcome w _ commands prompt tr (Nat.lt_succ_self _)

/-! ## One frame at a time -/

theorem showCount_append_show (tr : Trace) (p : String) (o : List String) :
    showCount (tr ++ [Event.show p o]) = showCount tr + 1 := by
  simp [showCount, List.countP_append]

theorem showCount_append_exec (tr : Trace) (c : String) :
    showCount (tr ++ [Event.exec c]) = showCount tr := by
  simp [showCount, List.countP_append]

theorem execCount_append_show (tr : Trace) (p : String) (o : List String) :
    execCount (tr ++ [Event.show p o]) = execCount tr := by
  simp [execCount, List.countP_append]

theorem execCalls_append_show (tr : Trace) (p : String) (o : List String) :
    execCalls (tr ++ [Event.show p o]) = execCalls tr := by
  simp [execCalls]

theorem Show_answer {w : World} {prompt : String} {options : List String} {tr : Trace}
    {a : String} (h : (w.pick (showCount tr) prompt options).map TrimSpace = some a) :
    Show w prompt options tr = ⟨.returned a, tr ++ [Event.show prompt options]⟩ := by
  unfold Show
  cases hp : w.pick (showCount tr) prompt options with
  | none => rw [hp] at h; simp at h
  | some raw => rw [hp] at h; simp at h; simp [h]

/-- The frame of `Navigate` once the picker has answered. -/
theorem NavigateWith_of_answer (nav : List Command → String → Trace → Res Unit)
    {w : World} {commands : List Command} {prompt : String} {tr : Trace} {selected : String}
    (h : (w.pick (showCount tr) prompt (commands.map (fun c => c.name) ++ ["Exit"])).map
      TrimSpace = some selected) :
    NavigateWith nav w commands prompt tr =
      if (cmdMap commands selected).prompt ≠ "" then
        NavigatePromptWith nav w (cmdMap commands selected) prompt
          (tr ++ [Event.show prompt (commands.map (fun c => c.name) ++ ["Exit"])])
      else if (cmdMap commands selected).list ≠ "" then
        NavigateListWith nav w (cmdMap commands selected) prompt
          (tr ++ [Event.show prompt (commands.map (fun c => c.name) ++ ["Exit"])])
      else if (cmdMap commands selected).commands.length > 0 then
        nav (cmdMap commands selected).commands (prompt ++ " > " ++ (cmdMap commands selected).name)
          (tr ++ [Event.show prompt (commands.map (fun c => c.name) ++ ["Exit"])])
      else if (cmdMap commands selected).cmd ≠ "" then
        (Execute w (cmdMap commands selected).cmd
          (tr ++ [Event.show prompt (commands.map (fun c => c.name) ++ ["Exit"])])).andThen
          fun _ tr2 => ⟨.returned (), tr2⟩
      else ⟨.returned (), tr ++ [Event.show prompt (commands.map (fun c => c.name) ++ ["Exit"])]⟩ := by
  unfold NavigateWith
  rw [Show_answer h, andThen_returned]

/-- The frame of `NavigatePrompt` once the picker has answered. -/
theorem NavigatePromptWith_of_answer (nav : List Command → String → Trace → Res Unit)
    {w : World} {cmd : Command} {prompt : String} {tr : Trace} {input : String}
    (h : (w.pick (showCount tr) (prompt ++ " > " ++ cmd.name ++ " > " ++ cmd.prompt) []).map
      TrimSpace = some input) :
    NavigatePromptWith nav w cmd prompt tr =
      if input = "" then
        ⟨.returned (), tr ++ [Event.show (prompt ++ " > " ++ cmd.name ++ " > " ++ cmd.prompt) []]⟩
      else if cmd.commands.length > 0 then
        nav (substituteChildren cmd.commands input) (prompt ++ " > " ++ cmd.name)
          (tr ++ [Event.show (prompt ++ " > " ++ cmd.name ++ " > " ++ cmd.prompt) []])
      else if cmd.cmd ≠ "" then
        (Execute w (ReplaceAll cmd.cmd placeholder input)
          (tr ++ [Event.show (prompt ++ " > " ++ cmd.name ++ " > " ++ cmd.prompt) []])).andThen
          fun _ tr2 => ⟨.returned (), tr2⟩
      else ⟨.returned (), tr ++ [Event.show (prompt ++ " > " ++ cmd.name ++ " > " ++ cmd.prompt) []]⟩ := by
  unfold NavigatePromptWith
  rw [Show_answer h, andThen_returned]

/-- The frame of `NavigateList` once the list command has succeeded and the
picker has answered. -/
theorem NavigateListWith_of_answer (nav : List Command → String → Trace → Res Unit)
    {w : World} {cmd : Command} {prompt : String} {tr : Trace} {out item : String}
    (hrun : w.run (execCount tr) cmd.list = .ok out)
    (h : (w.pick (showCount tr) (prompt ++ " > " ++ cmd.name) (listOptions out)).map
      TrimSpace = some item) :
    NavigateListWith nav w cmd prompt tr =
      if item = "Exit" then
        ⟨.returned (), tr ++ [Event.exec cmd.list,
          Event.show (prompt ++ " > " ++ cmd.name) (listOptions out)]⟩
      else if cmd.commands.length > 0 then
        nav (substituteChildren cmd.commands item) (prompt ++ " > " ++ cmd.name)
          (tr ++ [Event.exec cmd.list, Event.show (prompt ++ " > " ++ cmd.name) (listOptions out)])
      else if cmd.cmd ≠ "" then
        (Execute w (ReplaceAll cmd.cmd placeholder item)
          (tr ++ [Event.exec cmd.list,
            Event.show (prompt ++ " > " ++ cmd.name) (listOptions out)])).andThen
          fun _ tr3 => ⟨.returned (), tr3⟩
      else ⟨.returned (), tr ++ [Event.exec cmd.list,
          Event.show (prompt ++ " > " ++ cmd.name) (listOptions out)]⟩ := by
  unfold NavigateListWith
  rw [Execute_run_ok hrun, andThen_returned]
  have h2 : (w.pick (showCount (tr ++ [Event.exec cmd.list])) (prompt ++ " > " ++ cmd.name)
      (listOptions out)).map TrimSpace = some item := by
    rw [showCount_append_exec]; exact h
  rw [Show_answer h2, andThen_returned]
  simp only [List.append_assoc, List.singleton_append]

/-- The options of `NavigateList` are shown right after the list command has
run. -/
theorem NavigateListWith_trace_options (nav : List Command → String → Trace → Res Unit)
    (hnav : ∀ cs p t, t <+: (nav cs p t).trace)
    {w : World} {cmd : Command} {prompt : String} {tr : Trace} {out : String}
    (hrun : w.run (execCount tr) cmd.list = .ok out) :
    tr ++ [Event.exec cmd.list, Event.show (prompt ++ " > " ++ cmd.name) (listOptions out)]
      <+: (NavigateListWith nav w cmd prompt tr).trace := by
  unfold NavigateListWith
  rw [Execute_run_ok hrun, andThen_returned]
  have e : tr ++ [Event.exec cmd.list, Event.show (prompt ++ " > " ++ cmd.name) (listOptions out)]
      = (tr ++ [Event.exec cmd.list]) ++ [Event.show (prompt ++ " > " ++ cmd.name) (listOptions out)] := by
    simp
  rw [e]
  apply andThen_trace_extends
  · rw [Show_trace]
  · intro item _
    rw [Show_trace]
    split_ifs
    · exact List.prefix_refl _
    · exact hnav _ _ _
    · apply andThen_trace_extends
      · exact (List.prefix_append _ _).trans (Execute_trace_extends _ _ _)
      · intro _ _
        exact (List.prefix_append _ _).trans (Execute_trace_extends _ _ _)
    · exact List.prefix_refl _

theorem andThen_unit_execCalls (w : World) (cmdStr : String) (tr : Trace) :
    execCalls ((Execute w cmdStr tr).andThen fun _ t => (⟨.returned (), t⟩ : Res Unit)).trace
      = execCalls tr ++ [cmdStr] := by
  have h := Execute_execCalls w cmdStr tr
  unfold Res.andThen
  split <;> exact h

theorem andThen_unit_trace_extends (w : World) (cmdStr : String) (tr : Trace) :
    tr ++ [Event.exec cmdStr]
      <+: ((Execute w cmdStr tr).andThen fun _ t => (⟨.returned (), t⟩ : Res Unit)).trace := by
  have h := Execute_trace_extends w cmdStr tr
  unfold Res.andThen
  split <;> exact h

/-! ## Exit -/

/-- With no sibling named "Exit", the answer "Exit" makes `Navigate` return
after its single picker call. -/
theorem Navigate_exit_returns (w : World) (commands : List Command) (prompt : String)
    (tr : Trace) (hno : ∀ c ∈ commands, c.name ≠ "Exit")
    (h : (w.pick (showCount tr) prompt (commands.map (fun c => c.name) ++ ["Exit"])).map
      TrimSpace = some "Exit") :
    Navigate w commands prompt tr
      = ⟨.returned (), tr ++ [Event.show prompt (commands.map (fun c => c.name) ++ ["Exit"])]⟩ := by
  have hz : cmdMap commands "Exit" = Command.zero := by
    rcases cmdMap_zero_or_mem commands "Exit" with hz | ⟨hm, hn⟩
    · exact hz
    · exact absurd hn (hno _ hm)
  rw [Navigate_eq, NavigateWith_of_answer _ h, hz]
  simp [Command.zero]

/-- The answer "Exit" makes `NavigateList` return without a further call,
whatever the node is. -/
theorem NavigateList_exit_returns (w : World) (cmd : Command) (prompt : String) (tr : Trace)
    (out : String) (hrun : w.run (execCount tr) cmd.list = .ok out)
    (h : (w.pick (showCount tr) (prompt ++ " > " ++ cmd.name) (listOptions out)).map
      TrimSpace = some "Exit") :
    NavigateList w cmd prompt tr
      = ⟨.returned (), tr ++ [Event.exec cmd.list,
          Event.show (prompt ++ " > " ++ cmd.name) (listOptions out)]⟩ := by
  unfold NavigateList
  rw [NavigateListWith_of_answer _ hrun h]
  simp

/-- C1, at the input where it fails: a sibling command named "Exit" is found
by the lookup of `Navigate`, so the answer "Exit" runs its `cmd`. -/
theorem C1_exit_sibling_is_executed :
    Navigate (scripted ["Exit"] (fun _ => "")) [⟨"Exit", "poweroff", "", "", []⟩] "xd" []
      = ⟨.returned (), [Event.show "xd" ["Exit", "Exit"], Event.exec "poweroff"]⟩ := by
  decide

/-! ## Dispatch -/

/-- The four-way dispatch of `Navigate` on the command found for the answer,
in the order of the `if` chain of the source. -/
theorem Navigate_dispatch (w : World) (commands : List Command) (prompt : String)
    (tr : Trace) (selected : String)
    (h : (w.pick (showCount tr) prompt (commands.map (fun c => c.name) ++ ["Exit"])).map
      TrimSpace = some selected) :
    ((cmdMap commands selected).prompt ≠ "" →
      Navigate w commands prompt tr = NavigatePrompt w (cmdMap commands selected) prompt
        (tr ++ [Event.show prompt (commands.map (fun c => c.name) ++ ["Exit"])])) ∧
    ((cmdMap commands selected).prompt = "" → (cmdMap commands selected).list ≠ "" →
      Navigate w commands prompt tr = NavigateList w (cmdMap commands selected) prompt
        (tr ++ [Event.show prompt (commands.map (fun c => c.name) ++ ["Exit"])])) ∧
    ((cmdMap commands selected).prompt = "" → (cmdMap commands selected).list = "" →
      (cmdMap commands selected).commands.length > 0 →
      Navigate w commands prompt tr = Navigate w (cmdMap commands selected).commands
        (prompt ++ " > " ++ (cmdMap commands selected).name)
        (tr ++ [Event.show prompt (commands.map (fun c => c.name) ++ ["Exit"])])) ∧
    ((cmdMap commands selected).prompt = "" → (cmdMap commands selected).list = "" →
      (cmdMap commands selected).commands = [] → (cmdMap commands selected).cmd ≠ "" →
      Navigate w commands prompt tr = (Execute w (cmdMap commands selected).cmd
        (tr ++ [Event.show prompt (commands.map (fun c => c.name) ++ ["Exit"])])).andThen
          (fun _ tr2 => ⟨.returned (), tr2⟩) ∧
      execCalls (Navigate w commands prompt tr).trace
        = execCalls tr ++ [(cmdMap commands selected).cmd]) ∧
    ((cmdMap commands selected).prompt = "" → (cmdMap commands selected).list = "" →
      (cmdMap commands selected).commands = [] → (cmdMap commands selected).cmd = "" →
      Navigate w commands prompt tr
        = ⟨.returned (), tr ++ [Event.show prompt (commands.map (fun c => c.name) ++ ["Exit"])]⟩) := by
  have key := NavigateWith_of_answer (Navigate w) h
  rw [← Navigate_eq] at key
  refine ⟨?_, ?_, ?_, ?_, ?_⟩
  · intro h1
    rw [key, if_pos h1]; rfl
  · intro h1 h2
    rw [key, if_neg (not_not.2 h1), if_pos h2]; rfl
  · intro h1 h2 h3
    rw [key, if_neg (not_not.2 h1), if_neg (not_not.2 h2), if_pos h3]
  · intro h1 h2 h3 h4
    have e : Navigate w commands prompt tr = (Execute w (cmdMap commands selected).cmd
        (tr ++ [Event.show prompt (commands.map (fun c => c.name) ++ ["Exit"])])).andThen
          (fun _ tr2 => ⟨.returned (), tr2⟩) := by
      rw [key, if_neg (not_not.2 h1), if_neg (not_not.2 h2), if_neg (by simp [h3]), if_pos h4]
    refine ⟨e, ?_⟩
    rw [e, andThen_unit_execCalls, execCalls_append_show]
  · intro h1 h2 h3 h4
    rw [key, if_neg (not_not.2 h1), if_neg (not_not.2 h2), if_neg (by simp [h3]),
      if_neg (not_not.2 h4)]

/-- C3: `Navigate` dispatches the command found for the answer by the
precedence prompt, list, commands, cmd: a non-empty prompt enters
`NavigatePrompt`; else a non-empty list enters `NavigateList`; else children
make `Navigate` recurse on them with the breadcrumb extended by the name;
else a non-empty cmd is passed verbatim to `Execute`; else it returns. -/
theorem C3_navigate_precedence (w : World) (commands : List Command) (prompt : String)
    (tr : Trace) (selected : String)
    (h : (w.pick (showCount tr) prompt (commands.map (fun c => c.name) ++ ["Exit"])).map
      TrimSpace = some selected) :
    ((cmdMap commands selected).prompt ≠ "" →
      Navigate w commands prompt tr = NavigatePrompt w (cmdMap commands selected) prompt
        (tr ++ [Event.show prompt (commands.map (fun c => c.name) ++ ["Exit"])])) ∧
    ((cmdMap commands selected).prompt = "" → (cmdMap commands selected).list ≠ "" →
      Navigate w commands prompt tr = NavigateList w (cmdMap commands selected) prompt
        (tr ++ [Event.show prompt (commands.map (fun c => c.name) ++ ["Exit"])])) ∧
    ((cmdMap commands selected).prompt = "" → (cmdMap commands selected).list = "" →
      (cmdMap commands selected).commands.length > 0 →
      Navigate w commands prompt tr = Navigate w (cmdMap commands selected).commands
        (prompt ++ " > " ++ (cmdMap commands selected).name)
        (tr ++ [Event.show prompt (commands.map (fun c => c.name) ++ ["Exit"])])) ∧
    ((cmdMap commands selected).prompt = "" → (cmdMap commands selected).list = "" →
      (cmdMap commands selected).commands = [] → (cmdMap commands selected).cmd ≠ "" →
      Navigate w commands prompt tr = (Execute w (cmdMap commands selected).cmd
        (tr ++ [Event.show prompt (commands.map (fun c => c.name) ++ ["Exit"])])).andThen
          (fun _ tr2 => ⟨.returned (), tr2⟩) ∧
      execCalls (Navigate w commands prompt tr).trace
        = execCalls tr ++ [(cmdMap commands selected).cmd]) ∧
    ((cmdMap commands selected).prompt = "" → (cmdMap commands selected).list = "" →
      (cmdMap commands selected).commands = [] → (cmdMap commands selected).cmd = "" →
      Navigate w commands prompt tr
        = ⟨.returned (), tr ++ [Event.show prompt (commands.map (fun c => c.name) ++ ["Exit"])]⟩) :=
  Navigate_dispatch w commands prompt tr selected h

/-- C3 at the node `Rename`, which has both a prompt and a cmd: the free-text
flow is entered. -/
theorem C3_navigate_precedence_witness :
    (((scripted ["Rename", "foo"] (fun _ => "")).pick (showCount []) "xd"
        ([renameNode].map (fun c => c.name) ++ ["Exit"])).map TrimSpace = some "Rename") ∧
    ((cmdMap [renameNode] "Rename").prompt ≠ "" →
      Navigate (scripted ["Rename", "foo"] (fun _ => "")) [renameNode] "xd" []
        = NavigatePrompt (scripted ["Rename", "foo"] (fun _ => "")) (cmdMap [renameNode] "Rename")
            "xd" ([] ++ [Event.show "xd" ([renameNode].map (fun c => c.name) ++ ["Exit"])])) :=
  ⟨by decide, (C3_navigate_precedence (scripted ["Rename", "foo"] (fun _ => "")) [renameNode]
    "xd" [] "Rename" (by decide)).1⟩

/-! ## The list flow -/

/-- C4, at the input where it fails: for the output of two lines, each ended
by a newline, the options shown have an empty string before "Exit". -/
theorem C4_trailing_newline_gives_empty_option :
    listOptions "dev1\ndev2\n" = ["dev1", "dev2", "", "Exit"] ∧
    (NavigateList (scripted ["Exit"] (fun _ => "dev1\ndev2\n"))
        (connectNode "echo dev1; echo dev2") "xd" []).trace
      = [Event.exec "echo dev1; echo dev2",
         Event.show "xd > Connect" ["dev1", "dev2", "", "Exit"]] := by
  decide

/-- C5: when the list command gives the empty output, the options shown by
`NavigateList` are exactly "Exit", for every node. -/
theorem C5_empty_output_only_exit (w : World) (cmd : Command) (prompt : String) (tr : Trace)
    (hrun : w.run (execCount tr) cmd.list = .ok "") :
    listOptions "" = ["Exit"] ∧
    tr ++ [Event.exec cmd.list, Event.show (prompt ++ " > " ++ cmd.name) ["Exit"]]
      <+: (NavigateList w cmd prompt tr).trace := by
  have hl : listOptions "" = ["Exit"] := by decide
  refine ⟨hl, ?_⟩
  have := @NavigateListWith_trace_options (Navigate w) (Navigate_trace_extends w)
    w cmd prompt tr "" hrun
  rw [hl] at this
  exact this

/-- C5 at the node `Connect` with a list command that prints nothing. -/
theorem C5_empty_output_only_exit_witness :
    (scripted ["Exit"] (fun _ => "")).run (execCount []) (connectNode "true").list = .ok "" ∧
    (listOptions "" = ["Exit"] ∧
    [] ++ [Event.exec (connectNode "true").list,
        Event.show ("xd" ++ " > " ++ (connectNode "true").name) ["Exit"]]
      <+: (NavigateList (scripted ["Exit"] (fun _ => "")) (connectNode "true") "xd" []).trace) :=
  ⟨by decide, C5_empty_output_only_exit (scripted ["Exit"] (fun _ => "")) (connectNode "true")
    "xd" [] (by decide)⟩

/-! ## The free-text flow -/

theorem andThenMem_fst {α : Type} (r : Res α) (m : List Command)
    (k : α → Trace → Res Unit × List Command) :
    (r.andThenMem m k).1 = r.andThen (fun a t => (k a t).1) := by
  unfold Res.andThenMem Res.andThen
  split <;> rfl

theorem NavigatePromptMemWith_fst (nav : List Command → String → Trace → Res Unit × List Command)
    (w : World) (cmd : Command) (prompt : String) (tr : Trace) :
    (NavigatePromptMemWith nav w cmd prompt tr).1
      = NavigatePromptWith (fun cs p t => (nav cs p t).1) w cmd prompt tr := by
  unfold NavigatePromptMemWith NavigatePromptWith
  rw [andThenMem_fst]
  congr 1
  funext input tr1
  split_ifs <;> rfl

theorem NavigateListMemWith_fst (nav : List Command → String → Trace → Res Unit × List Command)
    (w : World) (cmd : Command) (prompt : String) (tr : Trace) :
    (NavigateListMemWith nav w cmd prompt tr).1
      = NavigateListWith (fun cs p t => (nav cs p t).1) w cmd prompt tr := by
  unfold NavigateListMemWith NavigateListWith
  rw [andThenMem_fst]
  congr 1
  funext output tr1
  rw [andThenMem_fst]
  congr 1
  funext item tr2
  split_ifs <;> rfl

theorem NavigateMemWith_fst (nav : List Command → String → Trace → Res Unit × List Command)
    (w : World) (commands : List Command) (prompt : String) (tr : Trace) :
    (NavigateMemWith nav w commands prompt tr).1
      = NavigateWith (fun cs p t => (nav cs p t).1) w commands prompt tr := by
  unfold NavigateMemWith NavigateWith
  rw [andThenMem_fst]
  congr 1
  funext selected tr1
  dsimp only
  split_ifs
  · exact NavigatePromptMemWith_fst _ _ _ _ _
  · exact NavigateListMemWith_fst _ _ _ _ _
  · rfl
  · rfl
  · rfl

theorem NavigateMemFuel_fst (w : World) (n : Nat) :
    ∀ (commands : List Command) (prompt : String) (tr : Trace),
      (NavigateMemFuel w n commands prompt tr).1 = NavigateFuel w n commands prompt tr := by
  induction n with
  | zero => intro _ _ _; rfl
  | succ n ih =>
    intro commands prompt tr
    simp only [NavigateMemFuel, NavigateFuel]
    rw [NavigateMemWith_fst]
    congr 1
    funext cs p t
    exact ih cs p t

/-- The engine with the memory makes the same calls and ends the same way as
the engine without it. -/
theorem NavigateMem_fst (w : World) (commands : List Command) (prompt : String) (tr : Trace) :
    (NavigateMem w commands prompt tr).1 = Navigate w commands prompt tr :=
  NavigateMemFuel_fst w _ commands prompt tr

theorem NavigatePromptMem_fst (w : World) (cmd : Command) (prompt : String) (tr : Trace) :
    (NavigatePromptMem w cmd prompt tr).1 = NavigatePrompt w cmd prompt tr := by
  unfold NavigatePromptMem NavigatePrompt
  rw [NavigatePromptMemWith_fst]
  congr 1
  funext cs p t
  exact NavigateMem_fst w cs p t

/-- C6: when the picker returns the empty string, `NavigatePrompt` returns
right after its picker call, whatever the node is: the result does not depend
on the recursive call (it is not made), no command is executed, and the
children of the node are in memory as they were (no cmd or list is
rewritten). -/
theorem C6_empty_input_returns (w : World) (cmd : Command) (prompt : String) (tr : Trace)
    (h : (w.pick (showCount tr) (prompt ++ " > " ++ cmd.name ++ " > " ++ cmd.prompt) []).map
      TrimSpace = some "") :
    (∀ nav, NavigatePromptWith nav w cmd prompt tr
      = ⟨.returned (), tr ++ [Event.show (prompt ++ " > " ++ cmd.name ++ " > " ++ cmd.prompt) []]⟩) ∧
    NavigatePrompt w cmd prompt tr
      = ⟨.returned (), tr ++ [Event.show (prompt ++ " > " ++ cmd.name ++ " > " ++ cmd.prompt) []]⟩ ∧
    execCalls (NavigatePrompt w cmd prompt tr).trace = execCalls tr ∧
    (∀ nav, NavigatePromptMemWith nav w cmd prompt tr
      = (⟨.returned (), tr ++ [Event.show (prompt ++ " > " ++ cmd.name ++ " > " ++ cmd.prompt) []]⟩,
          cmd.commands)) ∧
    NavigatePromptMem w cmd prompt tr
      = (⟨.returned (), tr ++ [Event.show (prompt ++ " > " ++ cmd.name ++ " > " ++ cmd.prompt) []]⟩,
          cmd.commands) := by
  have hall : ∀ nav, NavigatePromptWith nav w cmd prompt tr
      = ⟨.returned (), tr ++ [Event.show (prompt ++ " > " ++ cmd.name ++ " > " ++ cmd.prompt) []]⟩ := by
    intro nav
    rw [NavigatePromptWith_of_answer nav h, if_pos rfl]
  have hmem : ∀ nav, NavigatePromptMemWith nav w cmd prompt tr
      = (⟨.returned (), tr ++ [Event.show (prompt ++ " > " ++ cmd.name ++ " > " ++ cmd.prompt) []]⟩,
          cmd.commands) := by
    intro nav
    unfold NavigatePromptMemWith
    rw [Show_answer h]
    simp [Res.andThenMem]
  refine ⟨hall, hall _, ?_, hmem, hmem _⟩
  unfold NavigatePrompt
  rw [hall, execCalls_append_show]

/-- C6 at the node `Tag` with an empty input: the child keeps its cmd and its
own list. -/
theorem C6_empty_input_returns_witness :
    ((scripted [""] (fun _ => "")).pick (showCount [])
        ("xd" ++ " > " ++ tagNode.name ++ " > " ++ tagNode.prompt) []).map TrimSpace
      = some "" ∧
    NavigatePromptMem (scripted [""] (fun _ => "")) tagNode "xd" []
      = (⟨.returned (), [] ++ [Event.show ("xd" ++ " > " ++ tagNode.name ++ " > "
          ++ tagNode.prompt) []]⟩, tagNode.commands) :=
  ⟨by decide, (C6_empty_input_returns (scripted [""] (fun _ => "")) tagNode "xd" []
    (by decide)).2.2.2.2⟩

/-- With a non-empty input the children of the node `Tag` are rewritten in
memory: cmd and list of the child both become the substituted cmd. -/
theorem NavigatePromptMem_rewrites :
    (NavigatePromptMem (scripted ["v1", "Exit"] (fun _ => "")) tagNode "xd" []).2.map
        (fun c => (c.name, c.cmd, c.list))
      = [("Apply", "tag v1", "tag v1")] := by
  decide

/-- The memory after a run through the sibling menu: only the children of the
selected command are rewritten. -/
theorem NavigateMem_rewrites_selected :
    (NavigateMem (scripted ["Tag", "v1", "Exit"] (fun _ => ""))
        [renameNode, tagNode] "xd" []).2.map
        (fun c => (c.name, c.cmd, c.commands.map (fun d => (d.name, d.cmd, d.list))))
      = [("Rename", "rename $selected", []), ("Tag", "", [("Apply", "tag v1", "tag v1")])] := by
  decide

/-! ## Placeholder substitution -/

theorem replaceFrom_nil (old new : List Char) (k : Nat) : replaceFrom old new k [] = [] := by
  cases k <;> rfl

/-- Dropping the rest of an occurrence is the same as scanning from behind
it. -/
theorem replaceFrom_skip (old new : List Char) :
    ∀ (k : Nat) (s : List Char), replaceFrom old new k s = replaceFrom old new 0 (s.drop k) := by
  intro k
  induction k with
  | zero => intro s; rfl
  | succ k ih =>
    intro s
    cases s with
    | nil => simp [replaceFrom_nil]
    | cons c s => simp [replaceFrom, ih s]

theorem placeholder_data : placeholder.data = '$' :: "selected".data := rfl

theorem ReplaceAll_placeholder_data (template value : String) :
    (ReplaceAll template placeholder value).data
      = replaceFrom placeholder.data value.data 0 template.data := by
  unfold ReplaceAll
  rw [if_neg (by rw [placeholder_data]; simp)]

theorem placeholder_length : placeholder.data.length = 9 := rfl

theorem replaceFrom_occurrence (v s'' : List Char) :
    replaceFrom placeholder.data v 0 (placeholder.data ++ s'')
      = v ++ replaceFrom placeholder.data v 0 s'' := by
  have h : placeholder.data ++ s'' = '$' :: ("selected".data ++ s'') := rfl
  rw [h]
  simp only [replaceFrom]
  rw [if_pos (by rw [← h]; simp), replaceFrom_skip]
  rfl

theorem replaceFrom_literal (v : List Char) (c : Char) (s' : List Char)
    (h : ¬ placeholder.data <+: c :: s') :
    replaceFrom placeholder.data v 0 (c :: s') = c :: replaceFrom placeholder.data v 0 s' := by
  simp only [replaceFrom]
  rw [if_neg (by simpa using h)]

theorem replaceFrom_unchanged (v : List Char) :
    ∀ s : List Char, ¬ placeholder.data <:+: s → replaceFrom placeholder.data v 0 s = s := by
  intro s
  induction s with
  | nil => intro _; rfl
  | cons c s ih =>
    intro hs
    have hnp : ¬ placeholder.data <+: c :: s := fun hp => hs hp.isInfix
    have hni : ¬ placeholder.data <:+: s := fun hi =>
      hs (hi.trans (List.suffix_cons c s).isInfix)
    rw [replaceFrom_literal v c s hnp, ih hni]

/-- A template without an occurrence of the placeholder is left unchanged. -/
theorem ReplaceAll_unchanged (template value : String)
    (h : ¬ containsPlaceholder template) : ReplaceAll template placeholder value = template := by
  have hd := ReplaceAll_placeholder_data template value
  rw [replaceFrom_unchanged value.data template.data h] at hd
  exact String.ext hd

theorem infix_append_cases {P a b : List Char} (h : P <:+: a ++ b) :
    P <:+: a ∨ P <:+: b ∨
      ∃ q r, P = q ++ r ∧ q ≠ [] ∧ r ≠ [] ∧ q <:+ a ∧ r <+: b := by
  obtain ⟨x, y, hxy⟩ := h
  rcases List.append_eq_append_iff.1 hxy with ⟨a', ha, hy⟩ | ⟨c', hc, hb⟩
  · exact Or.inl ⟨x, a', ha.symm⟩
  · rcases List.append_eq_append_iff.1 hc with ⟨a'', ha, hP⟩ | ⟨c'', hx, hc'⟩
    · by_cases hq : a'' = []
      · subst hq
        simp at hP
        exact Or.inr (Or.inl ⟨[], y, by simp [hb, hP]⟩)
      · by_cases hr : c' = []
        · subst hr
          simp at hP
          exact Or.inl ⟨x, [], by simp [ha, hP]⟩
        · exact Or.inr (Or.inr ⟨a'', c', hP, hq, hr, ⟨x, ha.symm⟩, ⟨y, hb.symm⟩⟩)
    · exact Or.inr (Or.inl ⟨c'', y, by simp [hb, hc']⟩)

theorem suffix_append_cases {q a b : List Char} (h : q <:+ a ++ b) :
    q <:+ b ∨ ∃ a', a' ≠ [] ∧ a' <:+ a ∧ q = a' ++ b := by
  obtain ⟨x, hx⟩ := h
  rcases List.append_eq_append_iff.1 hx with ⟨a', ha, hq⟩ | ⟨c', _, hb⟩
  · by_cases hn : a' = []
    · subst hn
      simp at hq
      exact Or.inl (by rw [hq])
    · exact Or.inr ⟨a', hn, ⟨x, ha.symm⟩, hq⟩
  · exact Or.inl ⟨c', hb.symm⟩

theorem prefix_singleton_cases {r : List Char} {c : Char} (h : r <+: [c]) :
    r = [] ∨ r = [c] := by
  have hl := h.length_le
  rcases r with _ | ⟨x, _ | ⟨y, r⟩⟩
  · exact Or.inl rfl
  · right
    simpa using h
  · simp at hl

theorem suffix_singleton_cases {q : List Char} {c : Char} (h : q <:+ [c]) :
    q = [] ∨ q = [c] := by
  have hl := h.length_le
  rcases q with _ | ⟨x, _ | ⟨y, q⟩⟩
  · exact Or.inl rfl
  · right
    obtain ⟨z, hz⟩ := h
    have := congrArg List.length hz
    rcases z with _ | ⟨a, z⟩
    · simpa using hz
    · simp at this
  · simp at hl

theorem occurrences_mem {t pre suf : List Char} (h : t = pre ++ placeholder.data ++ suf) :
    (pre, suf) ∈ occurrences t := by
  unfold occurrences
  refine List.mem_map.2 ⟨pre.length, List.mem_filter.2 ⟨?_, ?_⟩, ?_⟩
  · rw [List.mem_range, h]; simp; omega
  · rw [h, List.append_assoc, List.drop_left]
    simp
  · rw [h, List.append_assoc, List.take_left, ← List.append_assoc,
      show pre.length + placeholder.data.length = (pre ++ placeholder.data).length by simp,
      List.drop_left]

theorem tokenSplits_mem {q r : List Char} (h : placeholder.data = q ++ r) (hq : q ≠ [])
    (hr : r ≠ []) : (q, r) ∈ tokenSplits := by
  unfold tokenSplits
  have hlen : q.length + r.length = 9 := by
    have := congrArg List.length h
    rw [placeholder_length] at this
    simpa using this.symm
  have hq0 : 0 < q.length := List.length_pos.2 hq
  have hr0 : 0 < r.length := List.length_pos.2 hr
  refine List.mem_map.2 ⟨q.length, ?_, ?_⟩
  · rw [placeholder_length]
    have : q.length ∈ [1, 2, 3, 4, 5, 6, 7, 8] := by
      simp only [List.mem_cons, List.mem_singleton]
      have := List.not_mem_nil q.length
      omega
    exact this
  · rw [h, List.take_left, List.drop_left]

theorem occurrences_spec {t pre suf : List Char} (h : (pre, suf) ∈ occurrences t) :
    t = pre ++ placeholder.data ++ suf := by
  unfold occurrences at h
  obtain ⟨i, hi, he⟩ := List.mem_map.1 h
  obtain ⟨_, hp⟩ := List.mem_filter.1 hi
  obtain ⟨s'', hs''⟩ := List.isPrefixOf_iff_prefix.1 hp
  have h1 : pre = t.take i := (congrArg Prod.fst he).symm
  have h2 : suf = t.drop (i + placeholder.data.length) := (congrArg Prod.snd he).symm
  have h3 : t.drop (i + placeholder.data.length) = s'' := by
    have : t.drop (i + placeholder.data.length) = (t.drop i).drop placeholder.data.length := by
      simp [List.drop_drop, Nat.add_comm]
    rw [this, ← hs'', List.drop_left]
  rw [h1, h2, h3, List.append_assoc, hs'', List.take_append_drop]

theorem tokenSplits_spec :
    ∀ qr ∈ tokenSplits, placeholder.data = qr.1 ++ qr.2 ∧ qr.1.head? = some '$' ∧
      qr.1.length < placeholder.data.length := by
  decide

/-- A text that begins the substituted `s` begins `s` itself, or it runs
through a beginning of `s` into an inserted value. -/
theorem prefix_replaceFrom_cases (v : List Char) :
    ∀ (r s : List Char), r <+: replaceFrom placeholder.data v 0 s →
      r <+: s ∨ ∃ r1 r2 suf, r = r1 ++ r2 ∧ r2 ≠ [] ∧ s = r1 ++ placeholder.data ++ suf ∧
        r2 <+: v ++ replaceFrom placeholder.data v 0 suf := by
  intro r
  induction r with
  | nil => intro s _; exact Or.inl (List.nil_prefix)
  | cons x r ih =>
    intro s h
    cases s with
    | nil => simp [replaceFrom] at h
    | cons d s2 =>
      by_cases hocc : placeholder.data <+: d :: s2
      · obtain ⟨suf, hsuf⟩ := hocc
        right
        refine ⟨[], x :: r, suf, rfl, by simp, by simp [hsuf], ?_⟩
        rw [← hsuf, replaceFrom_occurrence] at h
        exact h
      · rw [replaceFrom_literal v d s2 hocc] at h
        obtain ⟨hxd, hr⟩ := List.cons_prefix_cons.1 h
        subst hxd
        rcases ih s2 hr with h1 | ⟨r1, r2, suf, hr12, hr2, hs, hcont⟩
        · exact Or.inl (List.cons_prefix_cons.2 ⟨rfl, h1⟩)
        · exact Or.inr ⟨x :: r1, r2, suf, by simp [hr12], hr2, by simp [hs], hcont⟩

/-- The scan leaves no token when no inserted value re-forms one: `acc` is the
text written so far, which has no token and no beginning of a token at its
end that the rest of the output completes. -/
theorem replaceFrom_clean (t v : List Char)
    (H1 : ∀ pre suf, t = pre ++ placeholder.data ++ suf → ¬ placeholder.data <:+: v)
    (H2 : ∀ pre suf q r, t = pre ++ placeholder.data ++ suf → placeholder.data = q ++ r →
      q ≠ [] → r ≠ [] → q <:+ pre → ¬ r <+: v ++ replaceFrom placeholder.data v 0 suf)
    (H3 : ∀ pre suf q r, t = pre ++ placeholder.data ++ suf → placeholder.data = q ++ r →
      q ≠ [] → r ≠ [] → q <:+ v → ¬ r <+: replaceFrom placeholder.data v 0 suf) :
    ∀ (n : Nat) (s acc pre : List Char), s.length ≤ n → t = pre ++ s →
      ¬ placeholder.data <:+: acc →
      (∀ q r, placeholder.data = q ++ r → q ≠ [] → r ≠ [] → q <:+ acc →
        ¬ r <+: replaceFrom placeholder.data v 0 s) →
      ¬ placeholder.data <:+: acc ++ replaceFrom placeholder.data v 0 s := by
  intro n
  induction n with
  | zero =>
    intro s acc pre hs _ hacc _
    have : s = [] := List.length_eq_zero.1 (Nat.le_zero.1 hs)
    subst this
    simpa [replaceFrom] using hacc
  | succ n ih =>
    intro s acc pre hs ht hacc hI
    cases s with
    | nil => simpa [replaceFrom] using hacc
    | cons c s' =>
      have hlen : s'.length ≤ n := by simpa using hs
      by_cases hocc : placeholder.data <+: c :: s'
      · -- an occurrence of the token starts here
        obtain ⟨s'', hs''⟩ := hocc
        have ht2 : t = pre ++ placeholder.data ++ s'' := by
          rw [ht, ← hs'', List.append_assoc]
        rw [← hs'', replaceFrom_occurrence] at hI ⊢
        rw [← List.append_assoc]
        apply ih s'' (acc ++ v) (pre ++ placeholder.data) _ ht2
        · intro hinf
          rcases infix_append_cases hinf with h | h | ⟨q, r, hP, hq, hr, hqa, hrv⟩
          · exact hacc h
          · exact H1 pre s'' ht2 h
          · exact hI q r hP hq hr hqa (hrv.trans (List.prefix_append _ _))
        · intro q r hP hq hr hqs
          rcases suffix_append_cases hqs with h | ⟨a', ha', haa, hqe⟩
          · exact H3 pre s'' q r ht2 hP hq hr h
          · intro hcont
            exact hI a' (v ++ r) (by rw [hP, hqe, List.append_assoc]) ha' (by simp [hr]) haa
              ((List.prefix_append_right_inj v).2 hcont)
        · have := congrArg List.length hs''
          rw [List.length_append, placeholder_length] at this
          simp at this
          omega
      · -- a literal character
        rw [replaceFrom_literal v c s' hocc] at hI ⊢
        rw [List.append_cons]
        apply ih s' (acc ++ [c]) (pre ++ [c]) hlen (by rw [ht]; simp)
        · intro hinf
          rcases infix_append_cases hinf with h | h | ⟨q, r, hP, hq, hr, hqa, hrc⟩
          · exact hacc h
          · have := h.length_le
            rw [placeholder_length] at this
            simp at this
          · rcases prefix_singleton_cases hrc with h0 | h1
            · exact hr h0
            · subst h1
              exact hI q [c] hP hq hr hqa (by simp)
        · intro q r hP hq hr hqs
          rcases suffix_append_cases hqs with h | ⟨a', ha', haa, hqe⟩
          · rcases suffix_singleton_cases h with h0 | h1
            · exact absurd h0 hq
            · subst h1
              intro hcont
              rcases prefix_replaceFrom_cases v r s' hcont with h1 | ⟨r1, r2, suf, hr12, hr2, hs', hc2⟩
              · apply hocc
                rw [hP]
                simpa using h1
              · refine H2 (pre ++ c :: r1) suf (c :: r1) r2 ?_ ?_ (by simp) hr2
                  (List.suffix_append _ _) hc2
                · rw [ht, hs']; simp
                · rw [hP, hr12]; simp
          · intro hcont
            exact hI a' (c :: r) (by rw [hP, hqe]; simp) ha' (by simp) haa
              (List.cons_prefix_cons.2 ⟨rfl, hcont⟩)

/-- The substitution leaves no token when no inserted value re-forms one. -/
theorem ReplaceAll_clean (template value : String) (h : ¬ reformsToken template value) :
    ¬ containsPlaceholder (ReplaceAll template placeholder value) := by
  unfold reformsToken at h
  have H1 : ∀ pre suf, template.data = pre ++ placeholder.data ++ suf →
      ¬ placeholder.data <:+: value.data := by
    intro pre suf ht hin
    exact h ⟨(pre, suf), occurrences_mem ht, Or.inl hin⟩
  have H2 : ∀ pre suf q r, template.data = pre ++ placeholder.data ++ suf →
      placeholder.data = q ++ r → q ≠ [] → r ≠ [] → q <:+ pre →
      ¬ r <+: value.data ++ replaceFrom placeholder.data value.data 0 suf := by
    intro pre suf q r ht hP hq hr hqs hc
    exact h ⟨(pre, suf), occurrences_mem ht,
      Or.inr (Or.inl ⟨(q, r), tokenSplits_mem hP hq hr, hqs, hc⟩)⟩
  have H3 : ∀ pre suf q r, template.data = pre ++ placeholder.data ++ suf →
      placeholder.data = q ++ r → q ≠ [] → r ≠ [] → q <:+ value.data →
      ¬ r <+: replaceFrom placeholder.data value.data 0 suf := by
    intro pre suf q r ht hP hq hr hqs hc
    exact h ⟨(pre, suf), occurrences_mem ht,
      Or.inr (Or.inr ⟨(q, r), tokenSplits_mem hP hq hr, hqs, hc⟩)⟩
  unfold containsPlaceholder
  rw [ReplaceAll_placeholder_data]
  have := replaceFrom_clean template.data value.data H1 H2 H3 template.data.length template.data
    [] [] (le_refl _) rfl (by rw [placeholder_data]; simp)
    (by
      intro q r _ hq _ hqs
      exact absurd (List.suffix_nil.1 hqs) hq)
  simpa using this

/-- No occurrence of the token reaches over a dollar sign: the scan of a text
restarts at every dollar sign. -/
theorem replaceFrom_append_dollar (v b : List Char) :
    ∀ (n : Nat) (a : List Char), a.length ≤ n →
      replaceFrom placeholder.data v 0 (a ++ '$' :: b)
        = replaceFrom placeholder.data v 0 a ++ replaceFrom placeholder.data v 0 ('$' :: b) := by
  intro n
  induction n with
  | zero =>
    intro a ha
    have : a = [] := List.length_eq_zero.1 (Nat.le_zero.1 ha)
    subst this
    simp [replaceFrom]
  | succ n ih =>
    intro a ha
    cases a with
    | nil => simp [replaceFrom]
    | cons c a' =>
      by_cases hocc : placeholder.data <+: c :: a'
      · obtain ⟨a'', ha''⟩ := hocc
        have hl : a''.length ≤ n := by
          have := congrArg List.length ha''
          rw [List.length_append, placeholder_length] at this
          simp at this ha
          omega
        rw [← ha'', List.append_assoc, replaceFrom_occurrence, replaceFrom_occurrence,
          ih a'' hl, List.append_assoc]
      · have hocc2 : ¬ placeholder.data <+: c :: (a' ++ '$' :: b) := by
          intro h
          have h' : placeholder.data <+: (c :: a') ++ '$' :: b := h
          by_cases hlen : placeholder.data.length ≤ (c :: a').length
          · exact hocc (List.prefix_of_prefix_length_le h' (List.prefix_append _ _) hlen)
          · have hpre : c :: a' <+: placeholder.data :=
              List.prefix_of_prefix_length_le (List.prefix_append _ _) h' (by omega)
            obtain ⟨z, hz⟩ := hpre
            rw [← hz] at h'
            have hz2 : z <+: '$' :: b := (List.prefix_append_right_inj _).1 h'
            have hzne : z ≠ [] := by
              intro h0
              subst h0
              apply hlen
              rw [← hz]; simp
            obtain ⟨y, z', rfl⟩ := List.exists_cons_of_ne_nil hzne
            have hy : y = '$' := (List.cons_prefix_cons.1 hz2).1
            subst hy
            have hmem : '$' ∈ "selected".data := by
              have hq : "selected".data = a' ++ '$' :: z' := by
                have := hz
                rw [placeholder_data] at this
                simp at this
                exact this.2.symm
              rw [hq]; simp
            exact absurd hmem (by decide)
        have hl : a'.length ≤ n := by simpa using ha
        rw [List.cons_append, replaceFrom_literal v c _ hocc2, replaceFrom_literal v c a' hocc,
          ih a' hl, List.cons_append]

/-- The substituted text around an occurrence of the token. -/
theorem replaceFrom_around (v pre suf : List Char) :
    replaceFrom placeholder.data v 0 (pre ++ placeholder.data ++ suf)
      = replaceFrom placeholder.data v 0 pre ++ v ++ replaceFrom placeholder.data v 0 suf := by
  have h : pre ++ placeholder.data ++ suf = pre ++ '$' :: ("selected".data ++ suf) := by
    rw [placeholder_data]; simp
  rw [h, replaceFrom_append_dollar v _ _ pre (le_refl _)]
  have h2 : '$' :: ("selected".data ++ suf) = placeholder.data ++ suf := rfl
  rw [h2, replaceFrom_occurrence, List.append_assoc]

/-- Exactness of the amended C2: where an inserted value re-forms a token, the
substituted string has an occurrence of it. -/
theorem reformsToken_remains (template value : String) (h : reformsToken template value) :
    containsPlaceholder (ReplaceAll template placeholder value) := by
  obtain ⟨⟨pre, suf⟩, ho, hcase⟩ := h
  have ht := occurrences_spec ho
  unfold containsPlaceholder
  rw [ReplaceAll_placeholder_data, ht, replaceFrom_around]
  rcases hcase with h1 | ⟨⟨q, r⟩, hqr, hq, hr⟩ | ⟨⟨q, r⟩, hqr, hq, hr⟩
  · exact h1.trans ⟨_, _, rfl⟩
  · obtain ⟨hP, hhead, hlen⟩ := tokenSplits_spec (q, r) hqr
    simp only at hP hhead hlen hq hr
    obtain ⟨x, hx⟩ := hq
    obtain ⟨z, hz⟩ := hr
    have hq' : ∃ q', q = '$' :: q' := by
      cases q with
      | nil => simp at hhead
      | cons a q' => simp at hhead; exact ⟨q', by rw [hhead]⟩
    obtain ⟨q', rfl⟩ := hq'
    have hqu : replaceFrom placeholder.data value.data 0 ('$' :: q') = '$' :: q' := by
      apply replaceFrom_unchanged
      intro hin
      have := hin.length_le
      omega
    rw [← hx, replaceFrom_append_dollar _ _ _ x (le_refl _), hqu, List.append_assoc,
      List.append_assoc, ← hz]
    refine ⟨replaceFrom placeholder.data value.data 0 x, z, ?_⟩
    rw [hP]; simp
  · obtain ⟨hP, -, -⟩ := tokenSplits_spec (q, r) hqr
    simp only at hP hq hr
    obtain ⟨y, hy⟩ := hq
    obtain ⟨z, hz⟩ := hr
    rw [← hz]
    refine ⟨replaceFrom placeholder.data value.data 0 pre ++ y, z, ?_⟩
    rw [← hy, hP]; simp

/-- The substituted string has an occurrence of the placeholder exactly when an
inserted value re-forms the token. -/
theorem containsPlaceholder_iff_reformsToken (template value : String) :
    containsPlaceholder (ReplaceAll template placeholder value) ↔ reformsToken template value :=
  ⟨fun h => Classical.byContradiction fun hn => ReplaceAll_clean template value hn h,
    reformsToken_remains template value⟩

/-- C2, refuted as stated: a value that completes a broken token in the
template leaves an occurrence of the placeholder in the result. -/
theorem C2_substitution_can_leave_placeholder :
    ¬ (∀ template value : String, value ≠ "" → value ≠ "Exit" →
        ¬ containsPlaceholder (ReplaceAll template placeholder value)) := by
  intro h
  exact h "$sele$selectedted" "c" (by decide) (by decide) (by decide)

/-- A value that contains the placeholder brings it back into the result,
also for a template that is a single placeholder. -/
theorem ReplaceAll_value_with_placeholder :
    containsPlaceholder (ReplaceAll "$selected" placeholder "a $selected b") := by
  decide

/-- C2, amended: the substituted string has no occurrence of the placeholder
unless an inserted value re-forms the token (inside the value, or with the
beginning of a token directly before the occurrence, or with the text that
follows the occurrence); this holds for the directly executed cmd and for the
cmd and list of every rewritten child. -/
theorem C2_substitution_removes_placeholder (template value : String)
    (children : List Command) (ht : ¬ reformsToken template value)
    (hch : ∀ c ∈ children, ¬ reformsToken c.cmd value) :
    ¬ containsPlaceholder (ReplaceAll template placeholder value) ∧
    (∀ d ∈ substituteChildren children value,
      ¬ containsPlaceholder d.cmd ∧ ¬ containsPlaceholder d.list) := by
  refine ⟨ReplaceAll_clean template value ht, ?_⟩
  intro d hd
  unfold substituteChildren at hd
  obtain ⟨c, hc, rfl⟩ := List.mem_map.1 hd
  exact ⟨ReplaceAll_clean c.cmd value (hch c hc), ReplaceAll_clean c.cmd value (hch c hc)⟩

/-- C2 amended, at a template with another dollar sign, the children of the
node `Connect` and a value that ends with a dollar sign. -/
theorem C2_substitution_removes_placeholder_witness :
    ¬ reformsToken "echo $HOME $selected" "US$" ∧
    (¬ containsPlaceholder (ReplaceAll "echo $HOME $selected" placeholder "US$") ∧
    (∀ d ∈ substituteChildren [⟨"Go", "connect $selected", "", "", []⟩] "US$",
      ¬ containsPlaceholder d.cmd ∧ ¬ containsPlaceholder d.list)) :=
  ⟨by decide, C2_substitution_removes_placeholder "echo $HOME $selected" "US$"
    [⟨"Go", "connect $selected", "", "", []⟩] (by decide)
    (fun c hc => by rw [List.mem_singleton.1 hc]; decide)⟩

/-- Whether a value re-forms the token, on some pairs of template and value:
other dollar signs in the template or the value, an empty value and a template
without the token do not; completing a broken token does. -/
theorem reformsToken_examples :
    ¬ reformsToken "echo $HOME $selected" "dev1" ∧
    ¬ reformsToken "pay $selected" "$5" ∧
    ¬ reformsToken "cost $$selected" "" ∧
    ¬ reformsToken "$selected$selected" "a$" ∧
    ¬ reformsToken "reboot" "$selected" ∧
    reformsToken "$sele$selectedted" "c" ∧
    reformsToken "$selectedected" "$sel" ∧
    reformsToken "pay $selected" "a $selected b" := by
  decide

/-! ## Paths through submenus -/

/-- C7: when the answers name a path through submenu nodes to a leaf that has
only its cmd set (sibling names unique), the run of `Navigate` ends, and the
commands passed to the Executor during it are exactly one: the cmd of the
leaf, verbatim. -/
theorem C7_path_to_leaf_executes_once (w : World) (commands : List Command)
    (answers : List String) (leaf : Command) (hpath : LeafPath commands answers leaf) :
    ∀ (prompt : String) (tr : Trace), Answers w (showCount tr) answers →
      execCalls (Navigate w commands prompt tr).trace = execCalls tr ++ [leaf.cmd] ∧
      (Navigate w commands prompt tr).outcome ≠ .outOfFuel := by
  induction hpath with
  | @leaf commands c hnd hc hp hl hcs hcmd =>
    intro prompt tr hans
    refine ⟨?_, Navigate_outcome_ne_outOfFuel _ _ _ _⟩
    have h := (Navigate_dispatch w commands prompt tr c.name (hans.1 _ _)).2.2.2.1
    rw [cmdMap_of_mem hnd hc] at h
    exact (h hp hl hcs hcmd).2
  | @step commands c answers leaf hnd hc hp hl hcs _ ih =>
    intro prompt tr hans
    refine ⟨?_, Navigate_outcome_ne_outOfFuel _ _ _ _⟩
    have h := (Navigate_dispatch w commands prompt tr c.name (hans.1 _ _)).2.2.1
    rw [cmdMap_of_mem hnd hc] at h
    rw [h hp hl hcs]
    have hans2 : Answers w (showCount (tr ++ [Event.show prompt
        (commands.map (fun c => c.name) ++ ["Exit"])])) answers := by
      rw [showCount_append_show]; exact hans.2
    rw [(ih _ _ hans2).1, execCalls_append_show]

/-- C7 on the example tree: the answers "System" and "Reboot" give exactly
one Executor call, with `reboot`. -/
theorem C7_path_to_leaf_executes_once_witness :
    execCalls (Navigate (scripted ["System", "Reboot"] (fun _ => "")) systemTree "xd" []).trace
      = execCalls [] ++ [(⟨"Reboot", "reboot", "", "", []⟩ : Command).cmd] ∧
    (Navigate (scripted ["System", "Reboot"] (fun _ => "")) systemTree "xd" []).outcome
      ≠ .outOfFuel :=
  C7_path_to_leaf_executes_once (scripted ["System", "Reboot"] (fun _ => "")) systemTree
    ["System", "Reboot"] ⟨"Reboot", "reboot", "", "", []⟩
    (LeafPath.step
      (c := ⟨"System", "", "", "",
        [⟨"Reboot", "reboot", "", "", []⟩, ⟨"Shutdown", "shutdown now", "", "", []⟩]⟩)
      (by decide) (List.Mem.head _) rfl rfl (by decide)
      (LeafPath.leaf (c := ⟨"Reboot", "reboot", "", "", []⟩)
        (by decide) (List.Mem.head _) rfl rfl rfl (by decide)))
    "xd" [] ⟨fun _ _ => rfl, fun _ _ => rfl, trivial⟩

/-! ## The child rewrite -/

/-- The rewrite of the children, field by field. -/
theorem substituteChildren_eq (children : List Command) (value : String) :
    substituteChildren children value = children.map (fun c =>
      ⟨c.name, ReplaceAll c.cmd placeholder value, ReplaceAll c.cmd placeholder value,
        c.prompt, c.commands⟩) := rfl

theorem substituteChildren_list_eq_cmd (children : List Command) (value : String) :
    ∀ d ∈ substituteChildren children value, d.list = d.cmd := by
  intro d hd
  rw [substituteChildren_eq] at hd
  obtain ⟨c, -, rfl⟩ := List.mem_map.1 hd
  rfl

/-- C9: with a captured value `v` and a node that has children, both flows
recurse on the rewritten children: the same number of children in the same
order, each with cmd and list both equal to its original cmd with the
placeholder replaced by `v`, and with name, prompt and commands unchanged. -/
theorem C9_child_rewrite (w : World) (cmd : Command) (prompt : String) (tr : Trace)
    (v : String) (hch : cmd.commands.length > 0) :
    ((w.pick (showCount tr) (prompt ++ " > " ++ cmd.name ++ " > " ++ cmd.prompt) []).map
        TrimSpace = some v → v ≠ "" →
      NavigatePrompt w cmd prompt tr = Navigate w (substituteChildren cmd.commands v)
        (prompt ++ " > " ++ cmd.name)
        (tr ++ [Event.show (prompt ++ " > " ++ cmd.name ++ " > " ++ cmd.prompt) []])) ∧
    (∀ out, w.run (execCount tr) cmd.list = .ok out →
      (w.pick (showCount tr) (prompt ++ " > " ++ cmd.name) (listOptions out)).map
        TrimSpace = some v → v ≠ "Exit" →
      NavigateList w cmd prompt tr = Navigate w (substituteChildren cmd.commands v)
        (prompt ++ " > " ++ cmd.name)
        (tr ++ [Event.exec cmd.list,
          Event.show (prompt ++ " > " ++ cmd.name) (listOptions out)])) ∧
    (substituteChildren cmd.commands v).length = cmd.commands.length ∧
    (∀ (i : Nat) (h1 : i < (substituteChildren cmd.commands v).length)
        (h2 : i < cmd.commands.length),
      ((substituteChildren cmd.commands v).get ⟨i, h1⟩).cmd
          = ReplaceAll (cmd.commands.get ⟨i, h2⟩).cmd placeholder v ∧
      ((substituteChildren cmd.commands v).get ⟨i, h1⟩).list
          = ReplaceAll (cmd.commands.get ⟨i, h2⟩).cmd placeholder v ∧
      ((substituteChildren cmd.commands v).get ⟨i, h1⟩).name = (cmd.commands.get ⟨i, h2⟩).name ∧
      ((substituteChildren cmd.commands v).get ⟨i, h1⟩).prompt
          = (cmd.commands.get ⟨i, h2⟩).prompt ∧
      ((substituteChildren cmd.commands v).get ⟨i, h1⟩).commands
          = (cmd.commands.get ⟨i, h2⟩).commands) := by
  refine ⟨?_, ?_, ?_, ?_⟩
  · intro h hv
    unfold NavigatePrompt
    rw [NavigatePromptWith_of_answer _ h, if_neg hv, if_pos hch]
  · intro out hrun h hv
    unfold NavigateList
    rw [NavigateListWith_of_answer _ hrun h, if_neg hv, if_pos hch]
  · simp [substituteChildren]
  · intro i h1 h2
    simp [substituteChildren]

/-- C9 at the node `Connect` with the selected item `dev1`: the child `Go` is
passed on with cmd and list `connect dev1`. -/
theorem C9_child_rewrite_witness :
    (connectNode "list-devices").commands.length > 0 ∧
    (substituteChildren (connectNode "list-devices").commands "dev1").length
      = (connectNode "list-devices").commands.length ∧
    (substituteChildren (connectNode "list-devices").commands "dev1").map
        (fun c => (c.name, c.cmd, c.list, c.prompt))
      = [("Go", "connect dev1", "connect dev1", "")] :=
  ⟨by decide, (C9_child_rewrite (scripted [] (fun _ => "")) (connectNode "list-devices") "xd" []
    "dev1" (by decide)).2.2.1, by decide⟩

/-! ## The example `Connect` -/

/-- C8: for the node `Connect` with a non-empty list command `L` that
succeeds, the answers "Connect", "dev1", "Go" make the engine show the sibling
menu, run `L`, show the items, show the children menu and then invoke the
Executor with `connect dev1`. -/
theorem C8_connect_executes_connect_dev1 (w : World) (commands : List Command)
    (prompt : String) (tr : Trace) (L out : String) (hL : L ≠ "")
    (hsel : cmdMap commands "Connect" = connectNode L)
    (hans : Answers w (showCount tr) ["Connect", "dev1", "Go"])
    (hrun : w.run (execCount tr) L = .ok out) :
    tr ++ [Event.show prompt (commands.map (fun c => c.name) ++ ["Exit"]),
        Event.exec L,
        Event.show (prompt ++ " > " ++ "Connect") (listOptions out),
        Event.show (prompt ++ " > " ++ "Connect") ["Go", "Exit"],
        Event.exec "connect dev1"]
      <+: (Navigate w commands prompt tr).trace := by
  obtain ⟨h1, h2, h3, -⟩ := hans
  have hsub : substituteChildren (connectNode L).commands "dev1"
      = [⟨"Go", "connect dev1", "connect dev1", "", []⟩] := by
    rfl
  -- first frame: the sibling menu, answer "Connect"
  have e1 := (Navigate_dispatch w commands prompt tr "Connect" (h1 _ _)).2.1
  rw [hsel] at e1
  rw [e1 rfl hL]
  -- list flow of Connect, answer "dev1"
  have hrun1 : w.run (execCount (tr ++ [Event.show prompt
      (commands.map (fun c => c.name) ++ ["Exit"])])) (connectNode L).list = .ok out := by
    rw [execCount_append_show]; exact hrun
  have hp2 : (w.pick (showCount (tr ++ [Event.show prompt
      (commands.map (fun c => c.name) ++ ["Exit"])]))
      (prompt ++ " > " ++ (connectNode L).name) (listOptions out)).map TrimSpace = some "dev1" := by
    rw [showCount_append_show]; exact h2 _ _
  unfold NavigateList
  rw [NavigateListWith_of_answer _ hrun1 hp2, if_neg (by decide),
    if_pos (by simp [connectNode]), hsub]
  -- second frame: the children menu, answer "Go"
  have hp3 : (w.pick (showCount (tr ++ [Event.show prompt
      (commands.map (fun c => c.name) ++ ["Exit"])] ++ [Event.exec (connectNode L).list,
        Event.show (prompt ++ " > " ++ (connectNode L).name) (listOptions out)]))
      (prompt ++ " > " ++ (connectNode L).name)
      (([⟨"Go", "connect dev1", "connect dev1", "", []⟩] : List Command).map (fun c => c.name)
        ++ ["Exit"])).map TrimSpace = some "Go" := by
    have : showCount (tr ++ [Event.show prompt (commands.map (fun c => c.name) ++ ["Exit"])]
        ++ [Event.exec (connectNode L).list,
          Event.show (prompt ++ " > " ++ (connectNode L).name) (listOptions out)])
        = showCount tr + 1 + 1 := by
      simp [showCount, List.countP_append, List.countP_cons]
    rw [this]; exact h3 _ _
  have e2 := (Navigate_dispatch w _ _ _ "Go" hp3).2.1
  have hgo : cmdMap [⟨"Go", "connect dev1", "connect dev1", "", []⟩] "Go"
      = ⟨"Go", "connect dev1", "connect dev1", "", []⟩ := rfl
  rw [hgo] at e2
  rw [e2 rfl (by decide)]
  -- list flow of the rewritten child: its list is the substituted cmd
  have hpre := NavigateListWith_trace_extends (Navigate w) (Navigate_trace_extends w) w
    (⟨"Go", "connect dev1", "connect dev1", "", []⟩ : Command) (prompt ++ " > " ++ (connectNode L).name)
    (tr ++ [Event.show prompt (commands.map (fun c => c.name) ++ ["Exit"])]
      ++ [Event.exec (connectNode L).list,
        Event.show (prompt ++ " > " ++ (connectNode L).name) (listOptions out)]
      ++ [Event.show (prompt ++ " > " ++ (connectNode L).name)
        (([⟨"Go", "connect dev1", "connect dev1", "", []⟩] : List Command).map (fun c => c.name)
          ++ ["Exit"])])
  unfold NavigateList
  simpa [connectNode] using hpre

/-- C8 on the single-node tree, with the list command printing `dev1` and
`dev2`. -/
theorem C8_connect_executes_connect_dev1_witness :
    [] ++ [Event.show "xd" ([connectNode "list-devices"].map (fun c => c.name) ++ ["Exit"]),
        Event.exec "list-devices",
        Event.show ("xd" ++ " > " ++ "Connect") (listOptions "dev1\ndev2\n"),
        Event.show ("xd" ++ " > " ++ "Connect") ["Go", "Exit"],
        Event.exec "connect dev1"]
      <+: (Navigate (scripted ["Connect", "dev1", "Go"] (fun _ => "dev1\ndev2\n"))
            [connectNode "list-devices"] "xd" []).trace :=
  C8_connect_executes_connect_dev1 (scripted ["Connect", "dev1", "Go"] (fun _ => "dev1\ndev2\n"))
    [connectNode "list-devices"] "xd" [] "list-devices" "dev1\ndev2\n" (by decide) rfl
    ⟨fun _ _ => rfl, fun _ _ => rfl, fun _ _ => rfl, trivial⟩ rfl

/-! ## Rewritten children always take the list flow -/

/-- C10: after the child rewrite with value `v`, every child has list equal
to cmd.  When the picker selects a rewritten child `c` with empty prompt and
non-empty cmd, `Navigate` enters `NavigateList` on it (never the direct
execution branch), so the Executor is first invoked with the substituted cmd
as list command; when that succeeds the picker is asked again, and then: on
"Exit" nothing more happens; on another answer, for a child without
children, the Executor is invoked a second time, with the substituted cmd in
which the placeholder is replaced by the answer. -/
theorem C10_rewritten_child_list_flow (w : World) (children : List Command) (v : String)
    (prompt : String) (tr : Trace) (selected : String)
    (hsel : (w.pick (showCount tr) prompt
      ((substituteChildren children v).map (fun c => c.name) ++ ["Exit"])).map TrimSpace
        = some selected)
    (hp : (cmdMap (substituteChildren children v) selected).prompt = "")
    (hc : (cmdMap (substituteChildren children v) selected).cmd ≠ "") :
    (∀ d ∈ substituteChildren children v, (d.list ≠ "" ↔ d.cmd ≠ "")) ∧
    (∃ c0 ∈ children, (cmdMap (substituteChildren children v) selected).cmd
      = ReplaceAll c0.cmd placeholder v) ∧
    Navigate w (substituteChildren children v) prompt tr
      = NavigateList w (cmdMap (substituteChildren children v) selected) prompt
          (tr ++ [Event.show prompt
            ((substituteChildren children v).map (fun c => c.name) ++ ["Exit"])]) ∧
    tr ++ [Event.show prompt ((substituteChildren children v).map (fun c => c.name) ++ ["Exit"]),
        Event.exec (cmdMap (substituteChildren children v) selected).cmd]
      <+: (Navigate w (substituteChildren children v) prompt tr).trace ∧
    (∀ out item : String,
      w.run (execCount tr) (cmdMap (substituteChildren children v) selected).cmd = .ok out →
      (w.pick (showCount tr + 1)
        (prompt ++ " > " ++ (cmdMap (substituteChildren children v) selected).name)
        (listOptions out)).map TrimSpace = some item →
      (item = "Exit" →
        Navigate w (substituteChildren children v) prompt tr
          = ⟨.returned (),
              tr ++ [Event.show prompt
                  ((substituteChildren children v).map (fun c => c.name) ++ ["Exit"]),
                Event.exec (cmdMap (substituteChildren children v) selected).cmd,
                Event.show
                  (prompt ++ " > " ++ (cmdMap (substituteChildren children v) selected).name)
                  (listOptions out)]⟩) ∧
      (item ≠ "Exit" → (cmdMap (substituteChildren children v) selected).commands = [] →
        execCalls (Navigate w (substituteChildren children v) prompt tr).trace
          = execCalls tr ++ [(cmdMap (substituteChildren children v) selected).cmd,
              ReplaceAll (cmdMap (substituteChildren children v) selected).cmd placeholder item])) := by
  have hall := substituteChildren_list_eq_cmd children v
  -- the selected command is a rewritten child
  have hmem : cmdMap (substituteChildren children v) selected ∈ substituteChildren children v := by
    rcases cmdMap_zero_or_mem (substituteChildren children v) selected with hz | ⟨hm, -⟩
    · rw [hz] at hc; exact absurd rfl hc
    · exact hm
  have hlc : (cmdMap (substituteChildren children v) selected).list
      = (cmdMap (substituteChildren children v) selected).cmd := hall _ hmem
  have hl : (cmdMap (substituteChildren children v) selected).list ≠ "" := by rw [hlc]; exact hc
  have e1 := (Navigate_dispatch w (substituteChildren children v) prompt tr selected hsel).2.1 hp hl
  refine ⟨?_, ?_, e1, ?_, ?_⟩
  · intro d hd
    rw [hall d hd]
  · have hmem2 := hmem
    rw [substituteChildren_eq] at hmem2
    obtain ⟨c0, hc0, he⟩ := List.mem_map.1 hmem2
    exact ⟨c0, hc0, congrArg Command.cmd he.symm⟩
  · rw [e1]
    have := NavigateListWith_trace_extends (Navigate w) (Navigate_trace_extends w) w
      (cmdMap (substituteChildren children v) selected) prompt
      (tr ++ [Event.show prompt ((substituteChildren children v).map (fun c => c.name) ++ ["Exit"])])
    rw [hlc] at this
    unfold NavigateList
    simpa using this
  · intro out item hrun hitem
    have hrun1 : w.run (execCount (tr ++ [Event.show prompt
        ((substituteChildren children v).map (fun c => c.name) ++ ["Exit"])]))
        (cmdMap (substituteChildren children v) selected).list = .ok out := by
      rw [execCount_append_show, hlc]; exact hrun
    have hitem1 : (w.pick (showCount (tr ++ [Event.show prompt
        ((substituteChildren children v).map (fun c => c.name) ++ ["Exit"])]))
        (prompt ++ " > " ++ (cmdMap (substituteChildren children v) selected).name)
        (listOptions out)).map TrimSpace = some item := by
      rw [showCount_append_show]; exact hitem
    have e2 := NavigateListWith_of_answer (Navigate w) hrun1 hitem1
    constructor
    · intro hi
      rw [e1]
      unfold NavigateList
      rw [e2, if_pos hi, hlc]
      simp
    · intro hi hnil
      rw [e1]
      unfold NavigateList
      rw [e2, if_neg hi, if_neg (by simp [hnil]), if_pos hc, andThen_unit_execCalls, hlc]
      simp [execCalls]

/-- C10 on the rewritten child `Go` of the node `Connect`: selecting it runs
`connect dev1` as a list command, and the next answer `x` runs it again. -/
theorem C10_rewritten_child_list_flow_witness :
    execCalls (Navigate (scripted ["Go", "x"] (fun _ => "dev1\n"))
        (substituteChildren (connectNode "list-devices").commands "dev1") "xd > Connect" []).trace
      = execCalls [] ++ [(cmdMap (substituteChildren (connectNode "list-devices").commands "dev1")
            "Go").cmd,
          ReplaceAll (cmdMap (substituteChildren (connectNode "list-devices").commands "dev1")
            "Go").cmd placeholder "x"] :=
  ((C10_rewritten_child_list_flow (scripted ["Go", "x"] (fun _ => "dev1\n"))
    (connectNode "list-devices").commands "dev1" "xd > Connect" [] "Go" rfl rfl
    (by decide)).2.2.2.2 "dev1\n" "x" rfl rfl).2 (by decide) rfl

end xd
